import Mathlib

/-!
Verification of the maxpar task-scheduling engine
(`projet_SE_Maakni_Guettab_tahenni/maxpar.py`).

The Python code is shallowly embedded below: dictionaries become
insertion-ordered association lists, Python sets become insertion-ordered
duplicate-free lists, exceptions become an explicit error type, and the
recursive procedures of the source receive an explicit fuel argument (the
source recursion is unbounded; fuel exhaustion and Python built-in run-time
errors such as TypeError / KeyError / RecursionError are modelled by the
`none` / `nativeError` outcomes and are proved unreachable on the inputs the
theorems speak about).
-/

namespace Maxpar

/-- Association-list lookup, modelling Python `dict.get` / `dict[k]`
(first matching key wins; Python dicts have unique keys). -/
def lookupA {α : Type} : List (String × α) → String → Option α
  | [], _ => none
  | (k, v) :: rest, key => if key = k then some v else lookupA rest key

/-- Python `set.add` on an insertion-ordered, duplicate-free list model of a
set: append the element if it is not already present. -/
def sinsert (l : List String) (a : String) : List String :=
  if a ∈ l then l else l ++ [a]

/-- Python class `Task` (maxpar.py, lines 35-46): a name, the list of shared
variables the task reads, the list it writes, and an optional action
(`run=None` by default).  The action is modelled as a transformer of the
shared global state, a valuation of variable names. -/
structure Task where
  name : String
  reads : List String
  writes : List String
  run : Option ((String → Int) → (String → Int)) := none

/-- The exceptions maxpar.py raises: `TaskNotFoundError`,
`DuplicateTaskError`, `NoTaskPrecedenceError`, `InvalidPrecedenceDictError`,
plus `nativeError`, which stands for Python built-in run-time failures
(TypeError on `len(None)` or calling a `None` action, KeyError,
RecursionError on unbounded recursion). -/
inductive MaxparError where
  | taskNotFound (name : String)
  | duplicateTask (name : String)
  | noTaskPrecedence (name : String)
  | invalidPrecedenceDict (msg : String)
  | nativeError
deriving DecidableEq

/-- The validated system: the `self.tasks` dictionary (name → task, in
insertion order) and the `self.precedence` dictionary. -/
structure TaskSystem where
  tasks : List (String × Task)
  precedence : List (String × List String)

/-- First loop of `TaskSystem.__init__` (lines 64-71): for each task in list
order, raise `NoTaskPrecedenceError` if the precedence dict has no entry for
it, raise `DuplicateTaskError` if its name was already registered, otherwise
record it in the tasks dictionary. -/
def registerTasks (precedence : List (String × List String)) :
    List Task → List (String × Task) → Except MaxparError (List (String × Task))
  | [], acc => Except.ok acc
  | task :: rest, acc =>
    if (lookupA precedence task.name).isNone then
      Except.error (MaxparError.noTaskPrecedence task.name)
    else if (lookupA acc task.name).isSome then
      Except.error (MaxparError.duplicateTask task.name)
    else registerTasks precedence rest (acc ++ [(task.name, task)])

/-- Second loop of `TaskSystem.__init__` (lines 73-75): every key of the
precedence dict must name a registered task, else `TaskNotFoundError`. -/
def checkPrecedenceKeys (tasksDict : List (String × Task)) :
    List (String × List String) → Except MaxparError Unit
  | [] => Except.ok ()
  | (taskName, _) :: rest =>
    if (lookupA tasksDict taskName).isNone then
      Except.error (MaxparError.taskNotFound taskName)
    else checkPrecedenceKeys tasksDict rest

/-- `if task not in dependencies: dependencies[task] = set()` (lines 87-92). -/
def ensureKey (deps : List (String × List String)) (k : String) :
    List (String × List String) :=
  if (lookupA deps k).isSome then deps else deps ++ [(k, [])]

/-- `dependencies[dependent_task].add(task)` (line 93): add `v` to the set
stored under key `k` (sets are insertion-ordered duplicate-free lists). -/
def addSucc (deps : List (String × List String)) (k v : String) :
    List (String × List String) :=
  deps.map fun p => if p.1 = k then (p.1, if v ∈ p.2 then p.2 else p.2 ++ [v]) else p

/-- Inner loop of `__validate_precedence_dict` (lines 90-93): record `task`
as a successor of each of its predecessors. -/
def addSuccAll (task : String) :
    List String → List (String × List String) → List (String × List String)
  | [], deps => deps
  | d :: ds, deps => addSuccAll task ds (addSucc (ensureKey deps d) d task)

/-- First phase of `TaskSystem.__validate_precedence_dict` (lines 79-93):
reject self-dependencies and build the reverse-adjacency (successor)
dictionary `dependencies`. -/
def buildDependencies :
    List (String × List String) → List (String × List String) →
    Except MaxparError (List (String × List String))
  | [], deps => Except.ok deps
  | (task, dependentTasks) :: rest, deps =>
    if task ∈ dependentTasks then
      Except.error (MaxparError.invalidPrecedenceDict
        ("Task " ++ task ++ " cannot depend on itself"))
    else buildDependencies rest (addSuccAll task dependentTasks (ensureKey deps task))

/-- Fuel budget used for the fuelled recursions below: one unit per
dictionary entry plus one per stored predecessor/successor name.  The Python
source has no such bound (its recursion is unbounded); any sufficiently
large budget yields the source behaviour, and the chosen budgets are proved
sufficient on the inputs the theorems speak about. -/
def sizeD (l : List (String × List String)) : Nat :=
  (l.map fun p => p.2.length + 1).sum

mutual
/-- `TaskSystem.__dfs_cycle_check` (lines 103-133): depth-first search with a
`visited` set and a "currently on stack" set; returns `true` when it meets a
node still on the stack.  `none` models fuel exhaustion or a KeyError on a
missing `dependencies[task_name]`; both are proved unreachable where used. -/
def dfsCycleCheck (deps : List (String × List String)) (fuel : Nat)
    (taskName : String) (visited stack : List String) :
    Option (Bool × List String × List String) :=
  match fuel with
  | 0 => none
  | Nat.succ fuel' =>
    match lookupA deps taskName with
    | none => none
    | some succs =>
      match dfsLoop deps fuel' succs (sinsert visited taskName) (sinsert stack taskName) with
      | none => none
      | some (true, v', s') => some (true, v', s')
      | some (false, v', s') => some (false, v', s'.erase taskName)

/-- The `for dependent_task in dependencies[task_name]` loop inside
`__dfs_cycle_check` (lines 126-131). -/
def dfsLoop (deps : List (String × List String)) (fuel : Nat)
    (succs : List String) (visited stack : List String) :
    Option (Bool × List String × List String) :=
  match succs with
  | [] => some (false, visited, stack)
  | d :: ds =>
    match fuel with
    | 0 => none
    | Nat.succ fuel' =>
      if d ∈ visited then
        if d ∈ stack then some (true, visited, stack)
        else dfsLoop deps fuel' ds visited stack
      else
        match dfsCycleCheck deps fuel' d visited stack with
        | none => none
        | some (true, v', s') => some (true, v', s')
        | some (false, v', s') => dfsLoop deps fuel' ds v' s'
end

/-- Outer loop of `__validate_precedence_dict` (lines 96-101): run the DFS
from every not-yet-visited key of the successor dictionary. -/
def cycleCheckFold (deps : List (String × List String)) :
    List String → List String → List String → Option Bool
  | [], _, _ => some false
  | k :: ks, visited, stack =>
    if k ∈ visited then cycleCheckFold deps ks visited stack
    else
      match dfsCycleCheck deps (sizeD deps + 1) k visited stack with
      | none => none
      | some (true, _, _) => some true
      | some (false, v', s') => cycleCheckFold deps ks v' s'

/-- `TaskSystem.__validate_precedence_dict` (lines 79-101). -/
def validatePrecedenceDict (precedence : List (String × List String)) :
    Except MaxparError Unit :=
  match buildDependencies precedence [] with
  | Except.error e => Except.error e
  | Except.ok deps =>
    match cycleCheckFold deps (deps.map Prod.fst) [] [] with
    | none => Except.error MaxparError.nativeError
    | some true => Except.error
        (MaxparError.invalidPrecedenceDict "Precedence dictionary contains a cycle")
    | some false => Except.ok ()

/-- `TaskSystem.__init__` (lines 57-77): register the tasks, check the
precedence keys, validate the precedence graph; the first violation aborts
construction and no `TaskSystem` is returned. -/
def buildTaskSystem (tasks : List Task) (precedence : List (String × List String)) :
    Except MaxparError TaskSystem :=
  match registerTasks precedence tasks [] with
  | Except.error e => Except.error e
  | Except.ok tasksDict =>
    match checkPrecedenceKeys tasksDict precedence with
    | Except.error e => Except.error e
    | Except.ok _ =>
      match validatePrecedenceDict precedence with
      | Except.error e => Except.error e
      | Except.ok _ => Except.ok { tasks := tasksDict, precedence := precedence }

mutual
/-- `TaskSystem.__r__get_dependencies` (lines 158-195): post-order DFS along
predecessors, appending each task after its predecessors. `none` models the
TypeError on `len(None)` (predecessor name missing from the dict) or
RecursionError (fuel). -/
def rGetDependencies (precedence : List (String × List String)) (fuel : Nat)
    (taskName : String) (dependencies visited : List String) :
    Option (List String × List String) :=
  match fuel with
  | 0 => none
  | Nat.succ fuel' =>
    if taskName ∈ visited then some (dependencies, visited)
    else
      match lookupA precedence taskName with
      | none => none
      | some subDependencies =>
        if subDependencies = [] then
          some (dependencies ++ [taskName], sinsert visited taskName)
        else
          match rGetLoop precedence fuel' subDependencies dependencies visited with
          | none => none
          | some (deps', vis') => some (deps' ++ [taskName], sinsert vis' taskName)

/-- The `for sub_task_name in sub_dependencies` loop (lines 190-191). -/
def rGetLoop (precedence : List (String × List String)) (fuel : Nat)
    (subs : List String) (dependencies visited : List String) :
    Option (List String × List String) :=
  match subs with
  | [] => some (dependencies, visited)
  | s :: ss =>
    match fuel with
    | 0 => none
    | Nat.succ fuel' =>
      match rGetDependencies precedence fuel' s dependencies visited with
      | none => none
      | some (deps', vis') => rGetLoop precedence fuel' ss deps' vis'
end

/-- `TaskSystem.get_dependencies` (lines 135-156): `TaskNotFoundError` when
the name has no precedence entry, otherwise the recursive expansion with the
task itself (`dependencies[:-1]`) removed. -/
def getDependencies (ts : TaskSystem) (taskName : String) :
    Except MaxparError (List String) :=
  match lookupA ts.precedence taskName with
  | none => Except.error (MaxparError.taskNotFound taskName)
  | some _ =>
    match rGetDependencies ts.precedence (sizeD ts.precedence + 1) taskName [] [] with
    | none => Except.error MaxparError.nativeError
    | some (dependencies, _) => Except.ok dependencies.dropLast

mutual
/-- `TaskSystem.__r___get_tasks_queue` (lines 227-262): skip a visited task;
otherwise fetch its dependency list, recurse on the dependencies when some
are unvisited, then enqueue `self.tasks.get(task_name)` and mark the task
visited. -/
def rGetTasksQueue (ts : TaskSystem) (fuel : Nat) (taskName : String)
    (sequence : List (Option Task)) (visited : List String) :
    Option (List (Option Task) × List String) :=
  match fuel with
  | 0 => none
  | Nat.succ fuel' =>
    if taskName ∈ visited then some (sequence, visited)
    else
      match getDependencies ts taskName with
      | Except.error _ => none
      | Except.ok dependencies =>
        if !(dependencies.isEmpty || dependencies.all fun d => visited.contains d) then
          match rQueueLoop ts fuel' dependencies sequence visited with
          | none => none
          | some (seq', vis') =>
            some (seq' ++ [lookupA ts.tasks taskName], sinsert vis' taskName)
        else
          some (sequence ++ [lookupA ts.tasks taskName], sinsert visited taskName)

/-- The `for dependency in dependencies` loop (lines 255-256). -/
def rQueueLoop (ts : TaskSystem) (fuel : Nat) (ds : List String)
    (sequence : List (Option Task)) (visited : List String) :
    Option (List (Option Task) × List String) :=
  match ds with
  | [] => some (sequence, visited)
  | d :: rest =>
    match fuel with
    | 0 => none
    | Nat.succ fuel' =>
      match rGetTasksQueue ts fuel' d sequence visited with
      | none => none
      | some (seq', vis') => rQueueLoop ts fuel' rest seq' vis'
end

/-- The `for task_name in self.tasks` loop shared by `run_seq` (lines
216-218) and `run` (lines 274-276): build the work queue. -/
def getTasksQueueAll (ts : TaskSystem) :
    List String → List (Option Task) → List String →
    Option (List (Option Task) × List String)
  | [], sequence, visited => some (sequence, visited)
  | n :: ns, sequence, visited =>
    match rGetTasksQueue ts (ts.precedence.length * (ts.precedence.length + 1) + 1)
        n sequence visited with
    | none => none
    | some (seq', vis') => getTasksQueueAll ts ns seq' vis'

/-- The fully built execution queue of `run_seq` / `run`. -/
def runSeqQueue (ts : TaskSystem) : Option (List (Option Task)) :=
  match getTasksQueueAll ts (ts.tasks.map Prod.fst) [] [] with
  | none => none
  | some (sequence, _) => some sequence

/-- The execution loop of `run_seq` (lines 221-225): dequeue each task and
call `task.run()`.  Returns the final shared state together with the list of
task names in invocation order; `none` models the TypeError of calling a
`None` task or a `None` action. -/
def execQueue : List (Option Task) → (String → Int) →
    Option ((String → Int) × List String)
  | [], st => some (st, [])
  | none :: _, _ => none
  | some task :: rest, st =>
    match task.run with
    | none => none
    | some act =>
      match execQueue rest (act st) with
      | none => none
      | some (st', names) => some (st', task.name :: names)

/-- `TaskSystem.run_seq` (lines 197-225) on an initial shared state. -/
def runSeq (ts : TaskSystem) (st : String → Int) :
    Option ((String → Int) × List String) :=
  match runSeqQueue ts with
  | none => none
  | some sequence => execQueue sequence st

/-- The conflict test of `TaskSystem.run` (line 291):
`set(task.reads) & set(p.writes) or set(task.writes) & set(p.reads)`. -/
def Conflict (a b : Task) : Prop :=
  (∃ k, k ∈ a.reads ∧ k ∈ b.writes) ∨ (∃ k, k ∈ a.writes ∧ k ∈ b.reads)

/-- Strip the `none` placeholders out of a built queue (in `run` the queue
entries are the registered `Task` objects whenever every looked-up name is
registered, which holds on every validly constructed system). -/
def collectTasks : List (Option Task) → Option (List Task)
  | [] => some []
  | none :: _ => none
  | some t :: rest => (collectTasks rest).map fun l => t :: l

/-- The initial work queue of `TaskSystem.run` (lines 272-276) — the same
construction as `run_seq`. -/
def runParQueue (ts : TaskSystem) : Option (List Task) :=
  match runSeqQueue ts with
  | none => none
  | some sequence => collectTasks sequence

/-- A configuration of the scheduling loop of `TaskSystem.run` (lines
278-317): the pending queue, the `processes` map (each running task with the
shared state it saw when its thread was started), the `executed` name set,
and the current shared state. -/
structure ParConfig where
  queue : List Task
  running : List (Task × (String → Int))
  executed : List String
  st : String → Int

/-- One scheduler event of `TaskSystem.run`.  `start` dispatches the queue
head when it conflicts with no running task and its dependency set is
already executed (lines 288-305); `requeue` sends a blocked head to the back
of the queue (lines 306-308); `finish` reaps a running task (lines 310-314),
applying its action's declared writes, computed from the shared state the
task saw at start time, to the current shared state; `finishNone` reaps a
task whose `run` is `None` (its thread did nothing).  Thread completion
times are arbitrary, so `finish` may fire at any point, giving every
interleaving the Python loop can produce. -/
inductive ParStep (ts : TaskSystem) : ParConfig → ParConfig → Prop where
  | start (t : Task) (rest : List Task) (running : List (Task × (String → Int)))
      (executed : List String) (st : String → Int) (deps : List String)
      (hdeps : getDependencies ts t.name = Except.ok deps)
      (hconf : ∀ p ∈ running, ¬ Conflict t p.1)
      (hdone : ∀ d ∈ deps, d ∈ executed) :
      ParStep ts ⟨t :: rest, running, executed, st⟩
        ⟨rest, running ++ [(t, st)], executed, st⟩
  | requeue (t : Task) (rest : List Task) (running : List (Task × (String → Int)))
      (executed : List String) (st : String → Int) (deps : List String)
      (hdeps : getDependencies ts t.name = Except.ok deps)
      (hblock : (∃ p ∈ running, Conflict t p.1) ∨ ∃ d ∈ deps, d ∉ executed) :
      ParStep ts ⟨t :: rest, running, executed, st⟩
        ⟨rest ++ [t], running, executed, st⟩
  | finish (t : Task) (snap : String → Int) (r₁ r₂ : List (Task × (String → Int)))
      (queue : List Task) (executed : List String) (st : String → Int)
      (act : (String → Int) → (String → Int)) (hrun : t.run = some act) :
      ParStep ts ⟨queue, r₁ ++ (t, snap) :: r₂, executed, st⟩
        ⟨queue, r₁ ++ r₂, executed ++ [t.name],
          fun k => if k ∈ t.writes then act snap k else st k⟩
  | finishNone (t : Task) (snap : String → Int) (r₁ r₂ : List (Task × (String → Int)))
      (queue : List Task) (executed : List String) (st : String → Int)
      (hrun : t.run = none) :
      ParStep ts ⟨queue, r₁ ++ (t, snap) :: r₂, executed, st⟩
        ⟨queue, r₁ ++ r₂, executed ++ [t.name], st⟩

/-- Zero or more scheduler events. -/
def ParReach (ts : TaskSystem) : ParConfig → ParConfig → Prop :=
  Relation.ReflTransGen (ParStep ts)

/-- The initial configuration of `TaskSystem.run` on shared state `st`. -/
def parInit (queue : List Task) (st : String → Int) : ParConfig :=
  ⟨queue, [], [], st⟩

/-- The run is over: queue drained and every thread joined (lines 315-317). -/
def ParDone (c : ParConfig) : Prop := c.queue = [] ∧ c.running = []

/-- Direct adjacency in an association-list dictionary: `b` is listed under
key `a`.  For `precedence` this reads "b is a direct predecessor of a"; for
the reversed `dependencies` dictionary, "b is a direct successor of a". -/
def edgeA (d : List (String × List String)) (a b : String) : Prop :=
  ∃ l, lookupA d a = some l ∧ b ∈ l

/-- `b` must (transitively) execute before `a`: `b` is a transitive
predecessor of `a` in the precedence mapping. -/
def depRel (prec : List (String × List String)) (a b : String) : Prop :=
  Relation.TransGen (edgeA prec) a b

/-- The precedence mapping has a cycle (a trivial self-dependency included). -/
def hasCycle (prec : List (String × List String)) : Prop :=
  ∃ n, depRel prec n n

/-- The declared read/write sets of a task are accurate: the task has an
action, the action writes only the declared writes, and what it writes is a
function of the declared reads alone. -/
def Accurate (t : Task) : Prop :=
  ∃ act, t.run = some act ∧
    (∀ st k, k ∉ t.writes → act st k = st k) ∧
    (∀ st st', (∀ k ∈ t.reads, st k = st' k) → ∀ k ∈ t.writes, act st k = act st' k)

/-- Two tasks touch a common shared variable with at least one write
(write/write, read/write or write/read overlap). -/
def SharesState (a b : Task) : Prop :=
  (∃ k, k ∈ a.writes ∧ k ∈ b.writes) ∨
    (∃ k, k ∈ a.reads ∧ k ∈ b.writes) ∨ (∃ k, k ∈ a.writes ∧ k ∈ b.reads)

/-- Invoke one task's action on the shared state (a `None` action leaves the
state unchanged). -/
def applyTask (t : Task) (st : String → Int) : String → Int :=
  match t.run with
  | none => st
  | some act => act st

/-- Run a list of tasks sequentially on the shared state. -/
def seqApply : List Task → (String → Int) → (String → Int)
  | [], st => st
  | t :: rest, st => seqApply rest (applyTask t st)

/-- The all-zero initial shared state used by the example program. -/
def st0 : String → Int := fun _ => 0

/-- The six-task example of maxpar_test.py / main.py: its precedence dict. -/
def exPrec : List (String × List String) :=
  [("T1", []), ("T2", []), ("T3", ["T1", "T2"]), ("T4", []), ("T5", ["T3", "T4"]),
    ("T6", ["T5"])]

/-- The six tasks of maxpar_test.py with their actions
(T1: X=5, T2: Y=3, T3: X*=X and Y*=Y, T4: Z=10, T5: Z+=X+Y, T6: Z+=5). -/
def exTasks : List Task :=
  [⟨"T1", [], ["X"], some fun s k => if k = "X" then 5 else s k⟩,
   ⟨"T2", [], ["Y"], some fun s k => if k = "Y" then 3 else s k⟩,
   ⟨"T3", ["X", "Y"], ["Y", "X"],
     some fun s k => if k = "X" then s "X" * s "X" else if k = "Y" then s "Y" * s "Y" else s k⟩,
   ⟨"T4", [], ["Z"], some fun s k => if k = "Z" then 10 else s k⟩,
   ⟨"T5", ["X", "Y", "Z"], ["Z"], some fun s k => if k = "Z" then s "Z" + s "X" + s "Y" else s k⟩,
   ⟨"T6", ["Z"], ["Z"], some fun s k => if k = "Z" then s "Z" + 5 else s k⟩]

/-- The validly constructed six-task system. -/
def exSys : TaskSystem := { tasks := exTasks.map fun t => (t.name, t), precedence := exPrec }

/-- A single task used by the C1 counterexample: registered name "A". -/
def taskA : Task := ⟨"A", [], [], none⟩

/-- C1 counterexample precedence: "A" depends on the unregistered name "B". -/
def precAB : List (String × List String) := [("A", ["B"])]

/-- C8 counterexample: the registered task "B" has no precedence entry while
the task list also repeats the name "A" (the duplicate comes first). -/
def tasksC8 : List Task := [⟨"A", [], [], none⟩, ⟨"A", [], [], none⟩, ⟨"B", [], [], none⟩]

/-- C8 counterexample precedence: only "A" has an entry. -/
def precC8 : List (String × List String) := [("A", [])]

/-- C7 counterexample: two independent tasks that both write "X" (the
write/write overlap the conflict rule of `run` does not check). -/
def taskWA : Task := ⟨"WA", [], ["X"], some fun s k => if k = "X" then 1 else s k⟩

/-- Second writer of "X". -/
def taskWB : Task := ⟨"WB", [], ["X"], some fun s k => if k = "X" then 2 else s k⟩

/-- C7 counterexample precedence: both tasks independent. -/
def precWW : List (String × List String) := [("WA", []), ("WB", [])]

/-- C7 counterexample system. -/
def sysWW : TaskSystem :=
  { tasks := [("WA", taskWA), ("WB", taskWB)], precedence := precWW }

/-- C10: a task whose optional action was omitted (`run=None`). -/
def taskNoRun : Task := ⟨"N", [], [], none⟩

/-- C10: the system containing only the action-less task. -/
def sysNoRun : TaskSystem := { tasks := [("N", taskNoRun)], precedence := [("N", [])] }

/-- `a` appears in the predecessor list stored under some entry with key
`b`: the reverse of the precedence adjacency, as the Python inner loop of
`__validate_precedence_dict` reads it. -/
def revEdge (prec : List (String × List String)) (a b : String) : Prop :=
  ∃ p ∈ prec, p.1 = b ∧ a ∈ p.2

/-- Every successor stored in the dictionary is itself a key of the
dictionary (true of the dictionary `__validate_precedence_dict` builds). -/
def DClosed (deps : List (String × List String)) : Prop :=
  ∀ a b, edgeA deps a b → b ∈ deps.map Prod.fst

/-- Remaining DFS work: one unit per unvisited entry plus one per successor
stored under an unvisited entry.  Bounds the fuel the fuelled DFS consumes. -/
def costD (deps : List (String × List String)) (visited : List String) : Nat :=
  (deps.map fun p => if p.1 ∈ visited then 0 else p.2.length + 1).sum

/-- Remaining work of the queue-building recursion: `prec.length + 1` fuel
units per entry not yet on the recursion path. -/
def costQ (prec : List (String × List String)) (path : List String) : Nat :=
  (prec.map fun p => if p.1 ∈ path then 0 else prec.length + 1).sum

/-- DFS completeness invariant: every black node (visited and off the
stack) has only black successors and reaches no cycle. -/
def BlackInv (deps : List (String × List String)) (visited stack : List String) : Prop :=
  ∀ b, b ∈ visited → b ∉ stack →
    (∀ c, edgeA deps b c → c ∈ visited ∧ c ∉ stack) ∧
    ∀ n, Relation.ReflTransGen (edgeA deps) b n → ¬ Relation.TransGen (edgeA deps) n n

/-- Spec §3 invariant "every name appearing in the graph corresponds to a
registered task", in its key-closure form: every name stored in a
predecessor list is itself a key of the mapping.  (Construction does not
enforce this for predecessor values — see C1.) -/
def PrecClosed (prec : List (String × List String)) : Prop :=
  ∀ p ∈ prec, ∀ d ∈ p.2, d ∈ prec.map Prod.fst

instance (prec : List (String × List String)) : Decidable (PrecClosed prec) := by
  unfold PrecClosed
  infer_instance

/-- Memoization invariant of `__r__get_dependencies`: the visited set is
closed under direct predecessors. -/
def VisClosed (prec : List (String × List String)) (vis : List String) : Prop :=
  ∀ v ∈ vis, ∀ p, edgeA prec v p → p ∈ vis

/-- Dependency-consistency of an output list: each element's direct
predecessors appear strictly before it. -/
def PredsBefore (prec : List (String × List String)) (l : List String) : Prop :=
  ∀ l₁ x l₂, l = l₁ ++ x :: l₂ → ∀ p, edgeA prec x p → p ∈ l₁

/-- Schedule-consistency of an execution order: each element's full
transitive dependency set appears strictly before it. -/
def TransBefore (prec : List (String × List String)) (l : List String) : Prop :=
  ∀ l₁ x l₂, l = l₁ ++ x :: l₂ → ∀ p, depRel prec x p → p ∈ l₁

/-! ## Basic dictionary lemmas -/

theorem lookupA_isSome {α : Type} (l : List (String × α)) (k : String) :
    (lookupA l k).isSome ↔ k ∈ l.map Prod.fst := by
  induction l with
  | nil => simp [lookupA]
  | cons p rest ih =>
    obtain ⟨k', v⟩ := p
    by_cases h : k = k' <;> simp [lookupA, h, ih]

theorem lookupA_eq_none {α : Type} (l : List (String × α)) (k : String) :
    lookupA l k = none ↔ k ∉ l.map Prod.fst := by
  rw [← lookupA_isSome]
  cases lookupA l k <;> simp

theorem lookupA_mem {α : Type} {l : List (String × α)} {k : String} {v : α}
    (h : lookupA l k = some v) : (k, v) ∈ l := by
  induction l with
  | nil => simp [lookupA] at h
  | cons p rest ih =>
    obtain ⟨k', v'⟩ := p
    by_cases hk : k = k'
    · simp [lookupA, hk] at h
      simp [hk, h]
    · simp [lookupA, hk] at h
      exact List.mem_cons_of_mem _ (ih h)

theorem lookupA_append {α : Type} (l₁ l₂ : List (String × α)) (k : String) :
    lookupA (l₁ ++ l₂) k = ((lookupA l₁ k).or (lookupA l₂ k)) := by
  induction l₁ with
  | nil => simp [lookupA]
  | cons p rest ih =>
    obtain ⟨k', v⟩ := p
    by_cases h : k = k' <;> simp [lookupA, h, ih]

theorem mem_sinsert (l : List String) (a b : String) :
    b ∈ sinsert l a ↔ b ∈ l ∨ b = a := by
  by_cases h : a ∈ l
  · simp only [sinsert, if_pos h]
    constructor
    · exact fun hb => Or.inl hb
    · rintro (hb | rfl)
      · exact hb
      · exact h
  · simp [sinsert, if_neg h]

theorem sinsert_self_mem (l : List String) (a : String) : a ∈ sinsert l a := by
  rw [mem_sinsert]; exact Or.inr rfl

theorem subset_sinsert (l : List String) (a : String) : l ⊆ sinsert l a := by
  intro x hx; rw [mem_sinsert]; exact Or.inl hx

/-! ## Registration loop (`TaskSystem.__init__`, first phase) -/

theorem registerTasks_ok_eq (prec : List (String × List String)) :
    ∀ (tasks : List Task) (acc d : List (String × Task)),
      registerTasks prec tasks acc = Except.ok d →
      d = acc ++ tasks.map fun t => (t.name, t) := by
  intro tasks
  induction tasks with
  | nil => intro acc d h; simpa [registerTasks] using h.symm
  | cons t rest ih =>
    intro acc d h
    simp only [registerTasks] at h
    by_cases h1 : (lookupA prec t.name).isNone
    · simp [h1] at h
    · by_cases h2 : (lookupA acc t.name).isSome
      · simp [h1, h2] at h
      · simp only [h1, h2, if_neg, if_false, Bool.false_eq_true] at h
        have := ih (acc ++ [(t.name, t)]) d h
        simpa using this

theorem registerTasks_append (prec : List (String × List String)) :
    ∀ (l₁ rest : List Task) (acc d : List (String × Task)),
      registerTasks prec l₁ acc = Except.ok d →
      registerTasks prec (l₁ ++ rest) acc = registerTasks prec rest d := by
  intro l₁
  induction l₁ with
  | nil =>
    intro rest acc d h
    simp only [registerTasks] at h
    cases h
    simp
  | cons t l ih =>
    intro rest acc d h
    simp only [registerTasks] at h ⊢
    by_cases h1 : (lookupA prec t.name).isNone
    · simp [h1] at h
    · by_cases h2 : (lookupA acc t.name).isSome
      · simp [h1, h2] at h
      · simp only [h1, h2, if_false, Bool.false_eq_true] at h ⊢
        exact ih rest _ d h

theorem registerTasks_ok_of (prec : List (String × List String)) :
    ∀ (tasks : List Task) (acc : List (String × Task)),
      (∀ t ∈ tasks, (lookupA prec t.name).isSome) →
      (tasks.map Task.name).Nodup →
      (∀ t ∈ tasks, t.name ∉ acc.map Prod.fst) →
      ∃ d, registerTasks prec tasks acc = Except.ok d := by
  intro tasks
  induction tasks with
  | nil => intro acc _ _ _; exact ⟨acc, rfl⟩
  | cons t rest ih =>
    intro acc hall hnd hacc
    have h1 : (lookupA prec t.name).isNone = false := by
      have := hall t (List.mem_cons_self t rest)
      cases h : lookupA prec t.name
      · rw [h] at this; simp at this
      · simp [h]
    have h2 : (lookupA acc t.name).isSome = false := by
      have := hacc t (List.mem_cons_self t rest)
      rw [← lookupA_isSome] at this
      cases h : (lookupA acc t.name).isSome
      · rfl
      · exact absurd h this
    have hnd' : (rest.map Task.name).Nodup := (List.nodup_cons.mp (by simpa using hnd)).2
    have hnotin : t.name ∉ rest.map Task.name := (List.nodup_cons.mp (by simpa using hnd)).1
    have hacc' : ∀ u ∈ rest, u.name ∉ (acc ++ [(t.name, t)]).map Prod.fst := by
      intro u hu
      simp only [List.map_append, List.mem_append]
      rintro (h | h)
      · exact hacc u (List.mem_cons_of_mem _ hu) h
      · simp at h
        apply hnotin
        rw [← h]
        exact List.mem_map.mpr ⟨u, hu, rfl⟩
    obtain ⟨d, hd⟩ := ih (acc ++ [(t.name, t)])
      (fun u hu => hall u (List.mem_cons_of_mem _ hu)) hnd' hacc'
    refine ⟨d, ?_⟩
    simp only [registerTasks, h1, h2, if_false, Bool.false_eq_true]
    exact hd

theorem registerTasks_ok_implies (prec : List (String × List String)) :
    ∀ (tasks : List Task) (acc d : List (String × Task)),
      registerTasks prec tasks acc = Except.ok d →
      (∀ t ∈ tasks, (lookupA prec t.name).isSome) ∧
        (tasks.map Task.name).Nodup ∧
        ∀ t ∈ tasks, t.name ∉ acc.map Prod.fst := by
  intro tasks
  induction tasks with
  | nil => intro acc d _; simp
  | cons t rest ih =>
    intro acc d h
    simp only [registerTasks] at h
    by_cases h1 : (lookupA prec t.name).isNone = true
    · rw [if_pos h1] at h; cases h
    · rw [if_neg h1] at h
      by_cases h2 : (lookupA acc t.name).isSome = true
      · rw [if_pos h2] at h; cases h
      · rw [if_neg h2] at h
        obtain ⟨hall, hnd, hacc⟩ := ih (acc ++ [(t.name, t)]) d h
        have htacc : t.name ∉ acc.map Prod.fst := by
          rw [← lookupA_isSome]
          simpa using h2
        refine ⟨?_, ?_, ?_⟩
        · intro u hu
          rcases List.mem_cons.mp hu with rfl | hu'
          · have : ¬ lookupA prec u.name = none := by simpa using h1
            cases hv : lookupA prec u.name
            · exact absurd hv this
            · simp
          · exact hall u hu'
        · simp only [List.map_cons, List.nodup_cons]
          constructor
          · intro hmem
            obtain ⟨u, hu, hname⟩ := List.mem_map.mp hmem
            have := hacc u hu
            simp [hname] at this
          · exact hnd
        · intro u hu
          rcases List.mem_cons.mp hu with rfl | hu'
          · exact htacc
          · intro hmem
            exact hacc u hu' (by simp [hmem])

/-! ## Key check (`TaskSystem.__init__`, second phase) -/

theorem checkPrecedenceKeys_ok_iff (d : List (String × Task)) :
    ∀ prec : List (String × List String),
      checkPrecedenceKeys d prec = Except.ok () ↔ ∀ p ∈ prec, p.1 ∈ d.map Prod.fst := by
  intro prec
  induction prec with
  | nil => simp [checkPrecedenceKeys]
  | cons p rest ih =>
    obtain ⟨k, v⟩ := p
    simp only [checkPrecedenceKeys]
    by_cases h : (lookupA d k).isNone = true
    · rw [if_pos h]
      constructor
      · intro hh; cases hh
      · intro hall
        have := hall (k, v) (List.mem_cons_self _ _)
        rw [← lookupA_isSome] at this
        rw [Option.isNone_iff_eq_none] at h
        rw [h] at this
        simp at this
    · rw [if_neg h, ih]
      constructor
      · intro hall q hq
        rcases List.mem_cons.mp hq with rfl | hq'
        · rw [← lookupA_isSome]
          cases hv : lookupA d k
          · rw [Option.isNone_iff_eq_none] at h; exact absurd hv h
          · simp
        · exact hall q hq'
      · intro hall q hq
        exact hall q (List.mem_cons_of_mem _ hq)

theorem checkPrecedenceKeys_error (d : List (String × Task)) :
    ∀ (p₁ : List (String × List String)) (p₂ : List (String × List String))
      (k : String) (v : List String),
      (∀ q ∈ p₁, q.1 ∈ d.map Prod.fst) → k ∉ d.map Prod.fst →
      checkPrecedenceKeys d (p₁ ++ (k, v) :: p₂) =
        Except.error (MaxparError.taskNotFound k) := by
  intro p₁
  induction p₁ with
  | nil =>
    intro p₂ k v _ hbad
    have : lookupA d k = none := (lookupA_eq_none d k).mpr hbad
    simp [checkPrecedenceKeys, this]
  | cons q rest ih =>
    intro p₂ k v hgood hbad
    obtain ⟨k', v'⟩ := q
    have hk' : (lookupA d k').isNone = false := by
      have := hgood (k', v') (List.mem_cons_self _ _)
      rw [← lookupA_isSome] at this
      cases hv : lookupA d k'
      · rw [hv] at this; simp at this
      · simp
    simp only [List.cons_append, checkPrecedenceKeys, hk', if_false, Bool.false_eq_true]
    exact ih p₂ k v (fun q hq => hgood q (List.mem_cons_of_mem _ hq)) hbad

/-! ## Decomposing `buildTaskSystem` -/

theorem buildTaskSystem_register_error {tasks : List Task}
    {prec : List (String × List String)} {e : MaxparError}
    (h : registerTasks prec tasks [] = Except.error e) :
    buildTaskSystem tasks prec = Except.error e := by
  simp [buildTaskSystem, h]

theorem buildTaskSystem_check_error {tasks : List Task}
    {prec : List (String × List String)} {d : List (String × Task)} {e : MaxparError}
    (hreg : registerTasks prec tasks [] = Except.ok d)
    (h : checkPrecedenceKeys d prec = Except.error e) :
    buildTaskSystem tasks prec = Except.error e := by
  simp [buildTaskSystem, hreg, h]

theorem buildTaskSystem_validate {tasks : List Task}
    {prec : List (String × List String)} {d : List (String × Task)}
    (hreg : registerTasks prec tasks [] = Except.ok d)
    (hchk : checkPrecedenceKeys d prec = Except.ok ()) :
    buildTaskSystem tasks prec =
      match validatePrecedenceDict prec with
      | Except.error e => Except.error e
      | Except.ok _ => Except.ok { tasks := d, precedence := prec } := by
  simp [buildTaskSystem, hreg, hchk]

theorem buildTaskSystem_ok_elim {tasks : List Task}
    {prec : List (String × List String)} {ts : TaskSystem}
    (h : buildTaskSystem tasks prec = Except.ok ts) :
    registerTasks prec tasks [] = Except.ok ts.tasks ∧
      checkPrecedenceKeys ts.tasks prec = Except.ok () ∧
      validatePrecedenceDict prec = Except.ok () ∧ ts.precedence = prec := by
  unfold buildTaskSystem at h
  cases hr : registerTasks prec tasks [] with
  | error e => rw [hr] at h; cases h
  | ok d =>
    rw [hr] at h
    dsimp only at h
    cases hc : checkPrecedenceKeys d prec with
    | error e => rw [hc] at h; cases h
    | ok u =>
      cases u
      rw [hc] at h
      dsimp only at h
      cases hv : validatePrecedenceDict prec with
      | error e => rw [hv] at h; cases h
      | ok u =>
        cases u
        rw [hv] at h
        dsimp only at h
        cases h
        refine ⟨by simpa using hr, by simpa using hc, by simpa using hv, rfl⟩

/-! ## Claim C1 — unknown names in the precedence mapping -/

/-- Claim C1 is false as stated: with the single registered task "A" and the
precedence mapping `{"A": ["B"]}`, the name "B" appears inside a predecessor
set without being registered, every other invariant holds, yet construction
succeeds instead of raising `UnknownTaskError` — predecessor values are
never checked. -/
theorem claimC1_counterexample :
    buildTaskSystem [taskA] precAB =
      Except.ok { tasks := [("A", taskA)], precedence := precAB } ∧
    ∀ e, buildTaskSystem [taskA] precAB ≠ Except.error e := by
  have h0 : buildTaskSystem [taskA] precAB =
      Except.ok { tasks := [("A", taskA)], precedence := precAB } := rfl
  refine ⟨h0, fun e h => ?_⟩
  rw [h0] at h
  cases h

/-- Claim C1, amended: construction fails with `UnknownTaskError`
(`TaskNotFoundError` in the code) whenever a key of the precedence mapping
does not correspond to a registered task (given that the per-task
missing-precedence/duplicate loop passes); a name that appears only inside a
predecessor set is not checked and construction can succeed.  This theorem
proves the key half: the first unregistered key aborts construction with
`TaskNotFoundError`. -/
theorem claimC1_amended (tasks : List Task) (p₁ p₂ : List (String × List String))
    (k : String) (v : List String) (d : List (String × Task))
    (hreg : registerTasks (p₁ ++ (k, v) :: p₂) tasks [] = Except.ok d)
    (hgood : ∀ q ∈ p₁, q.1 ∈ tasks.map Task.name)
    (hbad : k ∉ tasks.map Task.name) :
    buildTaskSystem tasks (p₁ ++ (k, v) :: p₂) =
      Except.error (MaxparError.taskNotFound k) := by
  have hd : d = tasks.map fun t => (t.name, t) := by
    simpa using registerTasks_ok_eq _ tasks [] d hreg
  have hkeys : d.map Prod.fst = tasks.map Task.name := by
    rw [hd, List.map_map]; rfl
  refine buildTaskSystem_check_error hreg ?_
  refine checkPrecedenceKeys_error d p₁ p₂ k v ?_ ?_
  · intro q hq; rw [hkeys]; exact hgood q hq
  · rw [hkeys]; exact hbad

/-- Witness for the amended C1 at a concrete input: task "A" registered, the
precedence mapping has the extra unregistered key "Z". -/
theorem claimC1_amended_witness :
    buildTaskSystem [taskA] [("A", []), ("Z", [])] =
      Except.error (MaxparError.taskNotFound "Z") := by
  exact claimC1_amended [taskA] [("A", [])] [] "Z" [] [("A", taskA)] (by rfl)
    (by intro q hq; simp at hq; simp [hq, taskA]) (by simp [taskA])

/-! ## Claim C8 — ordering of the construction-time checks -/

/-- Claim C8 is false as stated: the missing-precedence check is not a whole
phase that precedes duplicate detection; the two checks are interleaved per
task.  With tasks `[A, A, B]` and precedence `{"A": []}` the registered task
"B" has no precedence entry, yet construction fails with
`DuplicateTaskError("A")`, not `MissingPrecedenceError("B")`. -/
theorem claimC8_counterexample :
    buildTaskSystem tasksC8 precC8 = Except.error (MaxparError.duplicateTask "A") ∧
    buildTaskSystem tasksC8 precC8 ≠
      Except.error (MaxparError.noTaskPrecedence "B") := by
  have h0 : buildTaskSystem tasksC8 precC8 =
      Except.error (MaxparError.duplicateTask "A") := rfl
  refine ⟨h0, fun h => ?_⟩
  rw [h0] at h
  injection h with h'
  cases h'

/-- Claim C8, amended: the missing-precedence and duplicate checks run
interleaved, task by task in list order, with the missing-precedence check
first for each task; the first violation aborts construction (fail-fast, no
partial system).  Formally: if every task before `t` in the list passes both
checks, then a missing precedence entry for `t` raises
`MissingPrecedenceError(t)` and, failing that, a repeated name raises
`DuplicateTaskError(t)`. -/
theorem claimC8_amended (prec : List (String × List String))
    (l₁ l₂ : List Task) (t : Task)
    (hentry : ∀ u ∈ l₁, (lookupA prec u.name).isSome)
    (hnd : (l₁.map Task.name).Nodup) :
    (lookupA prec t.name = none →
      buildTaskSystem (l₁ ++ t :: l₂) prec =
        Except.error (MaxparError.noTaskPrecedence t.name)) ∧
    ((lookupA prec t.name).isSome → t.name ∈ l₁.map Task.name →
      buildTaskSystem (l₁ ++ t :: l₂) prec =
        Except.error (MaxparError.duplicateTask t.name)) := by
  obtain ⟨d, hd⟩ := registerTasks_ok_of prec l₁ [] hentry hnd (by simp)
  have happ := registerTasks_append prec l₁ (t :: l₂) [] d hd
  have hdk : d.map Prod.fst = l₁.map Task.name := by
    have := registerTasks_ok_eq prec l₁ [] d hd
    simp only [List.nil_append] at this
    rw [this, List.map_map]; rfl
  constructor
  · intro hmiss
    refine buildTaskSystem_register_error ?_
    rw [happ]
    simp [registerTasks, hmiss]
  · intro hsome hdup
    refine buildTaskSystem_register_error ?_
    rw [happ]
    have h1 : (lookupA prec t.name).isNone = false := by
      cases hv : lookupA prec t.name
      · rw [hv] at hsome; simp at hsome
      · simp
    have h2 : (lookupA d t.name).isSome = true := by
      rw [lookupA_isSome, hdk]; exact hdup
    simp [registerTasks, h1, h2]

/-- Witness for the amended C8: with tasks `[A, A, B]` and precedence
`{"A": []}`, the duplicate of "A" (second position, clean one-task prefix)
is reported. -/
theorem claimC8_amended_witness :
    buildTaskSystem tasksC8 precC8 = Except.error (MaxparError.duplicateTask "A") := by
  have h := claimC8_amended precC8 [⟨"A", [], [], none⟩]
    [⟨"B", [], [], none⟩] ⟨"A", [], [], none⟩
    (by intro u hu; simp at hu; simp [hu, precC8, lookupA]) (by simp)
  exact h.2 (by simp [precC8, lookupA]) (by simp)

/-! ## The successor dictionary built by `__validate_precedence_dict` -/

theorem lookupA_ensureKey (d : List (String × List String)) (k x : String) :
    lookupA (ensureKey d k) x =
      if x = k then ((lookupA d k).getD []) |> some else lookupA d x := by
  unfold ensureKey
  by_cases h : (lookupA d k).isSome = true
  · rw [if_pos h]
    obtain ⟨v, hv⟩ := Option.isSome_iff_exists.mp h
    by_cases hx : x = k
    · subst hx; simp [hv]
    · simp [hx]
  · rw [if_neg h]
    have hnone : lookupA d k = none := by
      cases hv : lookupA d k
      · rfl
      · rw [hv] at h; simp at h
    rw [lookupA_append]
    by_cases hx : x = k
    · subst hx; simp [hnone, lookupA]
    · simp only [if_neg hx]
      cases hv : lookupA d x
      · simp [lookupA, hx]
      · simp

theorem edgeA_ensureKey (d : List (String × List String)) (k a b : String) :
    edgeA (ensureKey d k) a b ↔ edgeA d a b := by
  unfold edgeA
  rw [lookupA_ensureKey]
  by_cases ha : a = k
  · subst ha
    cases hv : lookupA d a <;> simp [hv]
  · simp [ha]

theorem keys_ensureKey (d : List (String × List String)) (k : String) :
    (ensureKey d k).map Prod.fst =
      if k ∈ d.map Prod.fst then d.map Prod.fst else d.map Prod.fst ++ [k] := by
  unfold ensureKey
  by_cases h : (lookupA d k).isSome = true
  · rw [if_pos h, if_pos ((lookupA_isSome d k).mp h)]
  · have : k ∉ d.map Prod.fst := fun hm => h ((lookupA_isSome d k).mpr hm)
    rw [if_neg h, if_neg this]
    simp

theorem mem_keys_ensureKey (d : List (String × List String)) (k : String) :
    k ∈ (ensureKey d k).map Prod.fst := by
  rw [keys_ensureKey]
  by_cases h : k ∈ d.map Prod.fst <;> simp [h]

theorem keys_subset_ensureKey (d : List (String × List String)) (k : String) :
    d.map Prod.fst ⊆ (ensureKey d k).map Prod.fst := by
  rw [keys_ensureKey]
  by_cases h : k ∈ d.map Prod.fst <;> simp [h, List.subset_append_left]

theorem lookupA_addSucc (d : List (String × List String)) (k v x : String) :
    lookupA (addSucc d k v) x =
      if x = k then (lookupA d k).map fun l => if v ∈ l then l else l ++ [v]
      else lookupA d x := by
  induction d with
  | nil => by_cases hx : x = k <;> simp [addSucc, lookupA, hx]
  | cons p rest ih =>
    obtain ⟨k', l⟩ := p
    have hhead : (if (k', l).1 = k
          then ((k', l).1, if v ∈ (k', l).2 then (k', l).2 else (k', l).2 ++ [v])
          else (k', l)) =
        (k', if k' = k then (if v ∈ l then l else l ++ [v]) else l) := by
      by_cases hk : k' = k <;> simp [hk]
    show lookupA (List.map _ ((k', l) :: rest)) x = _
    rw [List.map_cons, hhead]
    by_cases hx : x = k'
    · subst hx
      by_cases hk : x = k
      · subst hk
        simp [lookupA]
      · simp [lookupA, hk]
    · have hms : List.map
          (fun p => if p.1 = k then (p.1, if v ∈ p.2 then p.2 else p.2 ++ [v]) else p)
          rest = addSucc rest k v := rfl
      show lookupA _ x = _
      rw [lookupA, if_neg hx, hms, ih]
      by_cases hk : x = k
      · subst hk
        rw [if_pos rfl, if_pos rfl, lookupA, if_neg hx]
      · rw [if_neg hk, if_neg hk, lookupA, if_neg hx]

theorem keys_addSucc (d : List (String × List String)) (k v : String) :
    (addSucc d k v).map Prod.fst = d.map Prod.fst := by
  unfold addSucc
  rw [List.map_map]
  apply List.map_congr_left
  intro p _
  by_cases h : p.1 = k <;> simp [h]

theorem edgeA_addSucc (d : List (String × List String)) (k v a b : String) :
    edgeA (addSucc d k v) a b ↔
      edgeA d a b ∨ (a = k ∧ b = v ∧ k ∈ d.map Prod.fst) := by
  unfold edgeA
  rw [lookupA_addSucc]
  by_cases ha : a = k
  · subst ha
    rw [if_pos rfl]
    cases hv : lookupA d a with
    | none =>
      have hk : a ∉ d.map Prod.fst := (lookupA_eq_none d a).mp hv
      simp [hv, hk]
    | some l =>
      have hmem : a ∈ d.map Prod.fst := (lookupA_isSome d a).mp (by simp [hv])
      constructor
      · rintro ⟨l', hl', hb⟩
        have h2 : some (if v ∈ l then l else l ++ [v]) = some l' := hl'
        injection h2 with h2
        subst h2
        by_cases hvl : v ∈ l
        · rw [if_pos hvl] at hb
          exact Or.inl ⟨l, rfl, hb⟩
        · rw [if_neg hvl] at hb
          rcases List.mem_append.mp hb with h | h
          · exact Or.inl ⟨l, rfl, h⟩
          · simp at h
            exact Or.inr ⟨rfl, h, hmem⟩
      · rintro (⟨l', hl', hb⟩ | ⟨-, hbv, -⟩)
        · injection hl' with h
          subst h
          refine ⟨if v ∈ l then l else l ++ [v], rfl, ?_⟩
          by_cases hvl : v ∈ l
          · rw [if_pos hvl]; exact hb
          · rw [if_neg hvl]; exact List.mem_append_left _ hb
        · subst hbv
          refine ⟨if b ∈ l then l else l ++ [b], rfl, ?_⟩
          by_cases hvl : b ∈ l
          · rw [if_pos hvl]; exact hvl
          · rw [if_neg hvl]; simp
  · rw [if_neg ha]
    simp [ha]

theorem edgeA_addSuccAll (t : String) :
    ∀ (ds : List String) (d : List (String × List String)) (a b : String),
      edgeA (addSuccAll t ds d) a b ↔ edgeA d a b ∨ (a ∈ ds ∧ b = t) := by
  intro ds
  induction ds with
  | nil => intro d a b; simp [addSuccAll]
  | cons x xs ih =>
    intro d a b
    show edgeA (addSuccAll t xs (addSucc (ensureKey d x) x t)) a b ↔ _
    rw [ih, edgeA_addSucc, edgeA_ensureKey]
    have hx : x ∈ (ensureKey d x).map Prod.fst := mem_keys_ensureKey d x
    constructor
    · rintro ((h | ⟨rfl, rfl, -⟩) | ⟨hxs, rfl⟩)
      · exact Or.inl h
      · exact Or.inr ⟨List.mem_cons_self _ _, rfl⟩
      · exact Or.inr ⟨List.mem_cons_of_mem _ hxs, rfl⟩
    · rintro (h | ⟨hmem, rfl⟩)
      · exact Or.inl (Or.inl h)
      · rcases List.mem_cons.mp hmem with rfl | hxs
        · exact Or.inl (Or.inr ⟨rfl, rfl, hx⟩)
        · exact Or.inr ⟨hxs, rfl⟩

theorem keys_subset_addSuccAll (t : String) :
    ∀ (ds : List String) (d : List (String × List String)),
      d.map Prod.fst ⊆ (addSuccAll t ds d).map Prod.fst := by
  intro ds
  induction ds with
  | nil => intro d; exact fun x hx => hx
  | cons x xs ih =>
    intro d
    show d.map Prod.fst ⊆ (addSuccAll t xs (addSucc (ensureKey d x) x t)).map Prod.fst
    intro y hy
    apply ih
    rw [keys_addSucc]
    exact keys_subset_ensureKey d x hy

theorem keys_nodup_ensureKey (d : List (String × List String)) (k : String)
    (h : (d.map Prod.fst).Nodup) : ((ensureKey d k).map Prod.fst).Nodup := by
  rw [keys_ensureKey]
  by_cases hk : k ∈ d.map Prod.fst
  · rw [if_pos hk]; exact h
  · rw [if_neg hk]
    simp [List.nodup_append, h, hk]

theorem keys_nodup_addSuccAll (t : String) :
    ∀ (ds : List String) (d : List (String × List String)),
      (d.map Prod.fst).Nodup → ((addSuccAll t ds d).map Prod.fst).Nodup := by
  intro ds
  induction ds with
  | nil => intro d h; exact h
  | cons x xs ih =>
    intro d h
    show ((addSuccAll t xs (addSucc (ensureKey d x) x t)).map Prod.fst).Nodup
    apply ih
    rw [keys_addSucc]
    exact keys_nodup_ensureKey d x h

theorem buildDependencies_ok_edge :
    ∀ (prec acc deps : List (String × List String)),
      buildDependencies prec acc = Except.ok deps →
      ∀ a b, edgeA deps a b ↔ edgeA acc a b ∨ revEdge prec a b := by
  intro prec
  induction prec with
  | nil =>
    intro acc deps h a b
    simp only [buildDependencies] at h
    cases h
    simp [revEdge]
  | cons p rest ih =>
    intro acc deps h a b
    obtain ⟨task, dts⟩ := p
    simp only [buildDependencies] at h
    by_cases hself : task ∈ dts
    · rw [if_pos hself] at h; cases h
    · rw [if_neg hself] at h
      rw [ih _ deps h a b, edgeA_addSuccAll, edgeA_ensureKey]
      have hrev : revEdge ((task, dts) :: rest) a b ↔
          (task = b ∧ a ∈ dts) ∨ revEdge rest a b := by
        unfold revEdge
        constructor
        · rintro ⟨q, hq, hqb, hqa⟩
          rcases List.mem_cons.mp hq with rfl | hq'
          · exact Or.inl ⟨hqb, hqa⟩
          · exact Or.inr ⟨q, hq', hqb, hqa⟩
        · rintro (⟨rfl, ha⟩ | ⟨q, hq', hqb, hqa⟩)
          · exact ⟨(task, dts), List.mem_cons_self _ _, rfl, ha⟩
          · exact ⟨q, List.mem_cons_of_mem _ hq', hqb, hqa⟩
      rw [hrev]
      constructor
      · rintro ((h1 | ⟨ha, rfl⟩) | h2)
        · exact Or.inl h1
        · exact Or.inr (Or.inl ⟨rfl, ha⟩)
        · exact Or.inr (Or.inr h2)
      · rintro (h1 | (⟨rfl, ha⟩ | h2))
        · exact Or.inl (Or.inl h1)
        · exact Or.inl (Or.inr ⟨ha, rfl⟩)
        · exact Or.inr h2

theorem buildDependencies_ok_keys :
    ∀ (prec acc deps : List (String × List String)),
      buildDependencies prec acc = Except.ok deps →
      (∀ p ∈ prec, p.1 ∈ deps.map Prod.fst) ∧
        acc.map Prod.fst ⊆ deps.map Prod.fst := by
  intro prec
  induction prec with
  | nil =>
    intro acc deps h
    simp only [buildDependencies] at h
    cases h
    exact ⟨by simp, fun x hx => hx⟩
  | cons p rest ih =>
    intro acc deps h
    obtain ⟨task, dts⟩ := p
    simp only [buildDependencies] at h
    by_cases hself : task ∈ dts
    · rw [if_pos hself] at h; cases h
    · rw [if_neg hself] at h
      obtain ⟨hrest, hsub⟩ := ih _ deps h
      have hstep : (ensureKey acc task).map Prod.fst ⊆ deps.map Prod.fst := by
        intro y hy
        exact hsub (keys_subset_addSuccAll task dts _ hy)
      refine ⟨?_, ?_⟩
      · intro q hq
        rcases List.mem_cons.mp hq with rfl | hq'
        · exact hstep (mem_keys_ensureKey acc task)
        · exact hrest q hq'
      · intro y hy
        exact hstep (keys_subset_ensureKey acc task hy)

theorem buildDependencies_ok_nodup :
    ∀ (prec acc deps : List (String × List String)),
      (acc.map Prod.fst).Nodup →
      buildDependencies prec acc = Except.ok deps →
      (deps.map Prod.fst).Nodup := by
  intro prec
  induction prec with
  | nil =>
    intro acc deps hnd h
    simp only [buildDependencies] at h
    cases h; exact hnd
  | cons p rest ih =>
    intro acc deps hnd h
    obtain ⟨task, dts⟩ := p
    simp only [buildDependencies] at h
    by_cases hself : task ∈ dts
    · rw [if_pos hself] at h; cases h
    · rw [if_neg hself] at h
      exact ih _ deps (keys_nodup_addSuccAll task dts _ (keys_nodup_ensureKey acc task hnd)) h

theorem buildDependencies_ok_of_no_self :
    ∀ (prec acc : List (String × List String)),
      (∀ p ∈ prec, p.1 ∉ p.2) →
      ∃ deps, buildDependencies prec acc = Except.ok deps := by
  intro prec
  induction prec with
  | nil => intro acc _; exact ⟨acc, rfl⟩
  | cons p rest ih =>
    intro acc hno
    obtain ⟨task, dts⟩ := p
    have hself : task ∉ dts := hno (task, dts) (List.mem_cons_self _ _)
    obtain ⟨deps, hd⟩ := ih (addSuccAll task dts (ensureKey acc task))
      fun q hq => hno q (List.mem_cons_of_mem _ hq)
    refine ⟨deps, ?_⟩
    simp only [buildDependencies, if_neg hself]
    exact hd

theorem buildDependencies_error_of_self :
    ∀ (prec acc : List (String × List String)),
      (∃ p ∈ prec, p.1 ∈ p.2) →
      ∃ msg, buildDependencies prec acc =
        Except.error (MaxparError.invalidPrecedenceDict msg) := by
  intro prec
  induction prec with
  | nil => rintro acc ⟨p, hp, -⟩; simp at hp
  | cons p rest ih =>
    rintro acc ⟨q, hq, hqself⟩
    obtain ⟨task, dts⟩ := p
    by_cases hself : task ∈ dts
    · exact ⟨"Task " ++ task ++ " cannot depend on itself",
        by simp only [buildDependencies, if_pos hself]⟩
    · rcases List.mem_cons.mp hq with rfl | hq'
      · exact absurd hqself hself
      · obtain ⟨msg, hmsg⟩ := ih (addSuccAll task dts (ensureKey acc task)) ⟨q, hq', hqself⟩
        refine ⟨msg, ?_⟩
        simp only [buildDependencies, if_neg hself]
        exact hmsg

/-! ## DFS cycle check: growth and stack restoration -/

theorem sinsert_of_not_mem {l : List String} {a : String} (h : a ∉ l) :
    sinsert l a = l ++ [a] := by simp [sinsert, h]

theorem erase_sinsert {l : List String} {a : String} (h : a ∉ l) :
    (sinsert l a).erase a = l := by
  rw [sinsert_of_not_mem h, List.erase_append_right _ h]
  simp

theorem sinsert_mono {l₁ l₂ : List String} {a : String} (h : l₁ ⊆ l₂) :
    sinsert l₁ a ⊆ sinsert l₂ a := by
  intro x hx
  rw [mem_sinsert] at hx ⊢
  rcases hx with hx | rfl
  · exact Or.inl (h hx)
  · exact Or.inr rfl

theorem dfs_growth (deps : List (String × List String)) :
    ∀ fuel : Nat,
      (∀ t visited stack r v' s',
        t ∉ visited → stack ⊆ visited →
        dfsCycleCheck deps fuel t visited stack = some (r, v', s') →
        visited ⊆ v' ∧ t ∈ v' ∧ (r = false → s' = stack)) ∧
      (∀ ds visited stack r v' s',
        stack ⊆ visited →
        dfsLoop deps fuel ds visited stack = some (r, v', s') →
        visited ⊆ v' ∧ (r = false → s' = stack)) := by
  intro fuel
  induction fuel with
  | zero =>
    constructor
    · intro t visited stack r v' s' _ _ h
      simp [dfsCycleCheck] at h
    · intro ds visited stack r v' s' _ h
      cases ds with
      | nil =>
        simp only [dfsLoop] at h
        injection h with h
        injection h with h1 h
        injection h with h2 h3
        subst h1; subst h2; subst h3
        exact ⟨fun x hx => hx, fun _ => rfl⟩
      | cons d ds' => simp [dfsLoop] at h
  | succ fuel ih =>
    obtain ⟨ihcc, ihloop⟩ := ih
    constructor
    · intro t visited stack r v' s' htv hsub h
      simp only [dfsCycleCheck] at h
      cases hl : lookupA deps t with
      | none => rw [hl] at h; simp at h
      | some succs =>
        rw [hl] at h
        dsimp only at h
        cases hloop : dfsLoop deps fuel succs (sinsert visited t) (sinsert stack t) with
        | none => rw [hloop] at h; simp at h
        | some res =>
          obtain ⟨rb, v1, s1⟩ := res
          have hsub' : sinsert stack t ⊆ sinsert visited t := sinsert_mono hsub
          obtain ⟨hgrow, hrest⟩ := ihloop succs _ _ _ _ _ hsub' hloop
          rw [hloop] at h
          cases rb with
          | true =>
            dsimp only at h
            injection h with h
            injection h with h1 h
            injection h with h2 h3
            subst h1; subst h2; subst h3
            refine ⟨fun x hx => hgrow (subset_sinsert _ _ hx), hgrow (sinsert_self_mem _ _), ?_⟩
            intro hfalse; cases hfalse
          | false =>
            dsimp only at h
            injection h with h
            injection h with h1 h
            injection h with h2 h3
            subst h1; subst h2; subst h3
            refine ⟨fun x hx => hgrow (subset_sinsert _ _ hx), hgrow (sinsert_self_mem _ _), ?_⟩
            intro _
            rw [hrest rfl]
            exact erase_sinsert fun hc => htv (hsub hc)
    · intro ds visited stack r v' s' hsub h
      cases ds with
      | nil =>
        simp only [dfsLoop] at h
        injection h with h
        injection h with h1 h
        injection h with h2 h3
        subst h1; subst h2; subst h3
        exact ⟨fun x hx => hx, fun _ => rfl⟩
      | cons d ds' =>
        simp only [dfsLoop] at h
        by_cases hd : d ∈ visited
        · rw [if_pos hd] at h
          by_cases hds : d ∈ stack
          · rw [if_pos hds] at h
            injection h with h
            injection h with h1 h
            injection h with h2 h3
            subst h1; subst h2; subst h3
            refine ⟨fun x hx => hx, ?_⟩
            intro hfalse; cases hfalse
          · rw [if_neg hds] at h
            exact ihloop ds' visited stack r v' s' hsub h
        · rw [if_neg hd] at h
          cases hcc : dfsCycleCheck deps fuel d visited stack with
          | none => rw [hcc] at h; simp at h
          | some res =>
            obtain ⟨rb, v1, s1⟩ := res
            obtain ⟨hgrow, -, hrest⟩ := ihcc d _ _ _ _ _ hd hsub hcc
            rw [hcc] at h
            cases rb with
            | true =>
              dsimp only at h
              injection h with h
              injection h with h1 h
              injection h with h2 h3
              subst h1; subst h2; subst h3
              refine ⟨hgrow, ?_⟩
              intro hfalse; cases hfalse
            | false =>
              dsimp only at h
              have hs1 : s1 = stack := hrest rfl
              rw [hs1] at h
              obtain ⟨hgrow2, hrest2⟩ := ihloop ds' v1 stack r v' s'
                (fun x hx => hgrow (hsub hx)) h
              exact ⟨fun x hx => hgrow2 (hgrow hx), hrest2⟩

/-! ## DFS cycle check: soundness of the stack test -/

theorem chain'_to_last {R : String → String → Prop} :
    ∀ (l : List String) (tp a : String), List.Chain' R (l ++ [tp]) → a ∈ l ++ [tp] →
      Relation.ReflTransGen R a tp := by
  intro l
  induction l with
  | nil =>
    intro tp a _ ha
    simp at ha
    subst ha
    exact Relation.ReflTransGen.refl
  | cons x xs ih =>
    intro tp a hch ha
    rw [List.cons_append, List.chain'_cons'] at hch
    obtain ⟨hhead, hch'⟩ := hch
    rcases List.mem_cons.mp ha with rfl | ha'
    · cases hxs : xs with
      | nil =>
        subst hxs
        exact Relation.ReflTransGen.single (hhead tp (by simp))
      | cons y ys =>
        subst hxs
        exact Relation.ReflTransGen.head (hhead y (by simp))
          (ih tp y hch' (by simp))
    · exact ih tp a hch' ha'

theorem chain'_snoc {R : String → String → Prop} {l : List String} {tp d : String}
    (hch : List.Chain' R (l ++ [tp])) (hR : R tp d) :
    List.Chain' R ((l ++ [tp]) ++ [d]) := by
  rw [List.chain'_append]
  refine ⟨hch, List.chain'_singleton d, ?_⟩
  intro x hx y hy
  simp at hy
  subst hy
  have : (l ++ [tp]).getLast? = some tp := by
    rw [List.getLast?_concat]
  rw [this] at hx
  simp at hx
  subst hx
  exact hR

theorem dfs_sound (deps : List (String × List String)) :
    ∀ fuel : Nat,
      (∀ t visited stack v' s',
        t ∉ visited → stack ⊆ visited →
        List.Chain' (edgeA deps) (stack ++ [t]) →
        dfsCycleCheck deps fuel t visited stack = some (true, v', s') →
        ∃ n, Relation.TransGen (edgeA deps) n n) ∧
      (∀ ds visited stack₀ tp v' s',
        (stack₀ ++ [tp]) ⊆ visited →
        List.Chain' (edgeA deps) (stack₀ ++ [tp]) →
        (∀ d ∈ ds, edgeA deps tp d) →
        dfsLoop deps fuel ds visited (stack₀ ++ [tp]) = some (true, v', s') →
        ∃ n, Relation.TransGen (edgeA deps) n n) := by
  intro fuel
  induction fuel with
  | zero =>
    constructor
    · intro t visited stack v' s' _ _ _ h
      simp [dfsCycleCheck] at h
    · intro ds visited stack₀ tp v' s' _ _ _ h
      cases ds with
      | nil => simp [dfsLoop] at h
      | cons d ds' => simp [dfsLoop] at h
  | succ fuel ih =>
    obtain ⟨ihcc, ihloop⟩ := ih
    constructor
    · intro t visited stack v' s' htv hsub hch h
      simp only [dfsCycleCheck] at h
      cases hl : lookupA deps t with
      | none => rw [hl] at h; simp at h
      | some succs =>
        rw [hl] at h
        dsimp only at h
        have hts : t ∉ stack := fun hc => htv (hsub hc)
        have hstack : sinsert stack t = stack ++ [t] := sinsert_of_not_mem hts
        rw [hstack] at h
        cases hloop : dfsLoop deps fuel succs (sinsert visited t) (stack ++ [t]) with
        | none => rw [hloop] at h; simp at h
        | some res =>
          obtain ⟨rb, v1, s1⟩ := res
          rw [hloop] at h
          cases rb with
          | true =>
            refine ihloop succs (sinsert visited t) stack t v1 s1 ?_ hch ?_ hloop
            · intro x hx
              rcases List.mem_append.mp hx with hx | hx
              · exact subset_sinsert _ _ (hsub hx)
              · simp at hx; subst hx; exact sinsert_self_mem _ _
            · intro d hd
              exact ⟨succs, hl, hd⟩
          | false =>
            dsimp only at h
            injection h with h
            injection h with h1 h
            cases h1
    · intro ds visited stack₀ tp v' s' hsub hch hedges h
      cases ds with
      | nil =>
        simp only [dfsLoop] at h
        injection h with h
        injection h with h1 h
        cases h1
      | cons d ds' =>
        simp only [dfsLoop] at h
        by_cases hd : d ∈ visited
        · rw [if_pos hd] at h
          by_cases hds : d ∈ stack₀ ++ [tp]
          · refine ⟨d, Relation.TransGen.tail' ?_ (hedges d (List.mem_cons_self _ _))⟩
            exact chain'_to_last stack₀ tp d hch hds
          · rw [if_neg hds] at h
            exact ihloop ds' visited stack₀ tp v' s' hsub hch
              (fun x hx => hedges x (List.mem_cons_of_mem _ hx)) h
        · rw [if_neg hd] at h
          cases hcc : dfsCycleCheck deps fuel d visited (stack₀ ++ [tp]) with
          | none => rw [hcc] at h; simp at h
          | some res =>
            obtain ⟨rb, v1, s1⟩ := res
            rw [hcc] at h
            cases rb with
            | true =>
              refine ihcc d visited (stack₀ ++ [tp]) v1 s1 hd hsub ?_ hcc
              exact chain'_snoc hch (hedges d (List.mem_cons_self _ _))
            | false =>
              dsimp only at h
              obtain ⟨hgrow, -, hrest⟩ :=
                (dfs_growth deps fuel).1 d visited (stack₀ ++ [tp]) false v1 s1 hd hsub hcc
              have hs1 : s1 = stack₀ ++ [tp] := hrest rfl
              rw [hs1] at h
              exact ihloop ds' v1 stack₀ tp v' s' (fun x hx => hgrow (hsub hx)) hch
                (fun x hx => hedges x (List.mem_cons_of_mem _ hx)) h

/-! ## DFS cycle check: completeness (a false verdict certifies acyclicity) -/

theorem black_reach {deps : List (String × List String)} {visited stack : List String}
    (hinv : BlackInv deps visited stack) :
    ∀ b x, b ∈ visited → b ∉ stack → Relation.ReflTransGen (edgeA deps) b x →
      x ∈ visited ∧ x ∉ stack := by
  intro b x hbv hbs hr
  induction hr with
  | refl => exact ⟨hbv, hbs⟩
  | tail hseg hstep ih => exact (hinv _ ih.1 ih.2).1 _ hstep

theorem blackInv_insert {deps : List (String × List String)}
    {visited stack : List String} {t : String}
    (htv : t ∉ visited) (hinv : BlackInv deps visited stack) :
    BlackInv deps (sinsert visited t) (sinsert stack t) := by
  intro b hbv hbs
  have hbt : b ≠ t := fun hc => hbs (hc ▸ sinsert_self_mem stack t)
  have hbv' : b ∈ visited := by
    rcases (mem_sinsert visited t b).mp hbv with h | h
    · exact h
    · exact absurd h hbt
  have hbs' : b ∉ stack := fun hc => hbs (subset_sinsert stack t hc)
  obtain ⟨hcl, hnc⟩ := hinv b hbv' hbs'
  refine ⟨?_, hnc⟩
  intro c hc
  obtain ⟨hcv, hcs⟩ := hcl c hc
  refine ⟨subset_sinsert _ _ hcv, ?_⟩
  intro hcs'
  rcases (mem_sinsert stack t c).mp hcs' with h | h
  · exact hcs h
  · exact htv (h ▸ hcv)

theorem blackInv_finish {deps : List (String × List String)}
    {vstar stack : List String} {t : String} {succs : List String}
    (hts : t ∉ stack) (htv : t ∈ vstar)
    (hl : lookupA deps t = some succs)
    (hinv : BlackInv deps vstar (sinsert stack t))
    (hsuccs : ∀ d ∈ succs, d ∈ vstar ∧ d ∉ sinsert stack t) :
    BlackInv deps vstar stack := by
  intro b hbv hbs
  by_cases hbt : b = t
  · subst hbt
    have hedge : ∀ c, edgeA deps b c → c ∈ vstar ∧ c ∉ sinsert stack b := by
      rintro c ⟨l, hll, hcl⟩
      rw [hl] at hll
      injection hll with hll
      subst hll
      exact hsuccs c hcl
    refine ⟨?_, ?_⟩
    · intro c hc
      obtain ⟨hcv, hcs⟩ := hedge c hc
      exact ⟨hcv, fun hin => hcs (subset_sinsert _ _ hin)⟩
    · intro n hreach hcyc
      rcases Relation.ReflTransGen.cases_head hreach with rfl | ⟨c, hbc, hcn⟩
      · obtain ⟨c, hbc, hcb⟩ := (Relation.TransGen.head'_iff).mp hcyc
        obtain ⟨hcv, hcs⟩ := hedge c hbc
        have := black_reach hinv c b hcv hcs hcb
        exact this.2 (sinsert_self_mem _ _)
      · obtain ⟨hcv, hcs⟩ := hedge c hbc
        exact (hinv c hcv hcs).2 n hcn hcyc
  · have hbs' : b ∉ sinsert stack t := by
      intro hc
      rcases (mem_sinsert stack t b).mp hc with h | h
      · exact hbs h
      · exact hbt h
    obtain ⟨hcl, hnc⟩ := hinv b hbv hbs'
    refine ⟨?_, hnc⟩
    intro c hc
    obtain ⟨hcv, hcs⟩ := hcl c hc
    exact ⟨hcv, fun hin => hcs (subset_sinsert _ _ hin)⟩

theorem dfs_complete (deps : List (String × List String)) :
    ∀ fuel : Nat,
      (∀ t visited stack v' s',
        t ∉ visited → stack ⊆ visited → BlackInv deps visited stack →
        dfsCycleCheck deps fuel t visited stack = some (false, v', s') →
        BlackInv deps v' stack ∧ t ∈ v' ∧ t ∉ stack) ∧
      (∀ ds visited stack v' s',
        stack ⊆ visited → BlackInv deps visited stack →
        dfsLoop deps fuel ds visited stack = some (false, v', s') →
        BlackInv deps v' stack ∧ ∀ d ∈ ds, d ∈ v' ∧ d ∉ stack) := by
  intro fuel
  induction fuel with
  | zero =>
    constructor
    · intro t visited stack v' s' _ _ _ h
      simp [dfsCycleCheck] at h
    · intro ds visited stack v' s' _ hinv h
      cases ds with
      | nil =>
        simp only [dfsLoop] at h
        injection h with h
        injection h with h1 h
        injection h with h2 h3
        subst h2
        exact ⟨hinv, by simp⟩
      | cons d ds' => simp [dfsLoop] at h
  | succ fuel ih =>
    obtain ⟨ihcc, ihloop⟩ := ih
    constructor
    · intro t visited stack v' s' htv hsub hinv h
      simp only [dfsCycleCheck] at h
      cases hl : lookupA deps t with
      | none => rw [hl] at h; simp at h
      | some succs =>
        rw [hl] at h
        dsimp only at h
        have hts : t ∉ stack := fun hc => htv (hsub hc)
        cases hloop : dfsLoop deps fuel succs (sinsert visited t) (sinsert stack t) with
        | none => rw [hloop] at h; simp at h
        | some res =>
          obtain ⟨rb, v1, s1⟩ := res
          rw [hloop] at h
          cases rb with
          | true =>
            dsimp only at h
            injection h with h
            injection h with h1 h
            cases h1
          | false =>
            dsimp only at h
            injection h with h
            injection h with h1 h
            injection h with h2 h3
            subst h2
            obtain ⟨hinv1, hsuccs⟩ := ihloop succs (sinsert visited t) (sinsert stack t)
              v1 s1 (sinsert_mono hsub) (blackInv_insert htv hinv) hloop
            have hgrowL := (dfs_growth deps fuel).2 succs (sinsert visited t)
              (sinsert stack t) false v1 s1 (sinsert_mono hsub) hloop
            have htv1 : t ∈ v1 := hgrowL.1 (sinsert_self_mem _ _)
            refine ⟨?_, htv1, hts⟩
            exact blackInv_finish hts htv1 hl hinv1 hsuccs
    · intro ds visited stack v' s' hsub hinv h
      cases ds with
      | nil =>
        simp only [dfsLoop] at h
        injection h with h
        injection h with h1 h
        injection h with h2 h3
        subst h2
        exact ⟨hinv, by simp⟩
      | cons d ds' =>
        simp only [dfsLoop] at h
        by_cases hd : d ∈ visited
        · rw [if_pos hd] at h
          by_cases hds : d ∈ stack
          · rw [if_pos hds] at h
            injection h with h
            injection h with h1 h
            cases h1
          · rw [if_neg hds] at h
            obtain ⟨hinv', hblack⟩ := ihloop ds' visited stack v' s' hsub hinv h
            have hgrow := (dfs_growth deps fuel).2 ds' visited stack false v' s' hsub h
            refine ⟨hinv', ?_⟩
            intro x hx
            rcases List.mem_cons.mp hx with rfl | hx'
            · exact ⟨hgrow.1 hd, hds⟩
            · exact hblack x hx'
        · rw [if_neg hd] at h
          cases hcc : dfsCycleCheck deps fuel d visited stack with
          | none => rw [hcc] at h; simp at h
          | some res =>
            obtain ⟨rb, v1, s1⟩ := res
            rw [hcc] at h
            cases rb with
            | true =>
              dsimp only at h
              injection h with h
              injection h with h1 h
              cases h1
            | false =>
              dsimp only at h
              obtain ⟨hgrow1, hdv1, hrest⟩ :=
                (dfs_growth deps fuel).1 d visited stack false v1 s1 hd hsub hcc
              have hs1 : s1 = stack := hrest rfl
              rw [hs1] at h
              obtain ⟨hinvd, hdv, hdst⟩ := ihcc d visited stack v1 s1 hd hsub hinv hcc
              obtain ⟨hinv', hblack⟩ := ihloop ds' v1 stack v' s'
                (fun x hx => hgrow1 (hsub hx)) hinvd h
              have hgrow2 := (dfs_growth deps fuel).2 ds' v1 stack false v' s'
                (fun x hx => hgrow1 (hsub hx)) h
              refine ⟨hinv', ?_⟩
              intro x hx
              rcases List.mem_cons.mp hx with rfl | hx'
              · exact ⟨hgrow2.1 hdv, hdst⟩
              · exact hblack x hx'

/-! ## DFS cycle check: fuel sufficiency -/

theorem costD_mono (deps : List (String × List String)) {v v' : List String}
    (h : ∀ x, x ∈ v → x ∈ v') : costD deps v' ≤ costD deps v := by
  unfold costD
  apply List.sum_le_sum
  intro p _
  by_cases hp : p.1 ∈ v'
  · rw [if_pos hp]
    exact Nat.zero_le _
  · rw [if_neg hp, if_neg fun hc => hp (h _ hc)]

theorem costD_not_key (visited : List String) (t : String) :
    ∀ deps : List (String × List String), t ∉ deps.map Prod.fst →
      costD deps (sinsert visited t) = costD deps visited := by
  intro deps
  induction deps with
  | nil => intro _; rfl
  | cons p rest ih =>
    intro h
    have hp : p.1 ≠ t := by
      intro hc
      exact h (by simp [hc])
    have hrest : t ∉ rest.map Prod.fst := fun hc => h (by simp [hc])
    have hmem : p.1 ∈ sinsert visited t ↔ p.1 ∈ visited := by
      rw [mem_sinsert]
      constructor
      · rintro (hv | hv)
        · exact hv
        · exact absurd hv hp
      · exact fun hv => Or.inl hv
    have hterm : (if p.1 ∈ sinsert visited t then 0 else p.2.length + 1)
        = (if p.1 ∈ visited then 0 else p.2.length + 1) := by
      by_cases hv : p.1 ∈ visited
      · rw [if_pos hv, if_pos (hmem.mpr hv)]
      · rw [if_neg hv, if_neg fun hc => hv (hmem.mp hc)]
    unfold costD at ih ⊢
    simp only [List.map_cons, List.sum_cons]
    rw [ih hrest, hterm]

theorem costD_lookup (t : String) (succs : List String) :
    ∀ (deps : List (String × List String)) (visited : List String),
      (deps.map Prod.fst).Nodup → lookupA deps t = some succs → t ∉ visited →
      costD deps (sinsert visited t) + (succs.length + 1) ≤ costD deps visited := by
  intro deps
  induction deps with
  | nil => intro visited _ hl _; simp [lookupA] at hl
  | cons p rest ih =>
    intro visited hnd hl htv
    obtain ⟨k, l⟩ := p
    simp only [List.map_cons, List.nodup_cons] at hnd
    obtain ⟨hk, hnd'⟩ := hnd
    unfold costD
    simp only [List.map_cons, List.sum_cons]
    by_cases hkt : t = k
    · subst hkt
      rw [lookupA, if_pos rfl] at hl
      injection hl with hl
      have h1 : (if (t, l).1 ∈ sinsert visited t then 0 else (t, l).2.length + 1) = 0 :=
        if_pos (sinsert_self_mem visited t)
      have h2 : (if (t, l).1 ∈ visited then 0 else (t, l).2.length + 1) = l.length + 1 :=
        if_neg htv
      rw [h1, h2]
      have h3 : costD rest (sinsert visited t) = costD rest visited :=
        costD_not_key visited t rest hk
      unfold costD at h3
      rw [h3]
      have : succs.length = l.length := by rw [hl]
      omega
    · rw [lookupA, if_neg hkt] at hl
      have hmem : (k, l).1 ∈ sinsert visited t ↔ (k, l).1 ∈ visited := by
        rw [mem_sinsert]
        constructor
        · rintro (hv | hv)
          · exact hv
          · exact absurd hv.symm hkt
        · exact fun hv => Or.inl hv
      have hterm : (if (k, l).1 ∈ sinsert visited t then 0 else (k, l).2.length + 1)
          = (if (k, l).1 ∈ visited then 0 else (k, l).2.length + 1) := by
        by_cases hv : (k, l).1 ∈ visited
        · rw [if_pos hv, if_pos (hmem.mpr hv)]
        · rw [if_neg hv, if_neg fun hc => hv (hmem.mp hc)]
      rw [hterm]
      have := ih visited hnd' hl htv
      unfold costD at this
      dsimp only
      omega

theorem costD_nil (deps : List (String × List String)) :
    costD deps [] = sizeD deps := by
  simp [costD, sizeD]

theorem dfs_fuel (deps : List (String × List String))
    (hnd : (deps.map Prod.fst).Nodup) (hcl : DClosed deps) :
    ∀ fuel : Nat,
      (∀ t visited stack, t ∈ deps.map Prod.fst → t ∉ visited →
        stack ⊆ visited → costD deps visited ≤ fuel →
        (dfsCycleCheck deps fuel t visited stack).isSome) ∧
      (∀ ds visited stack, (∀ d ∈ ds, d ∈ deps.map Prod.fst) →
        stack ⊆ visited → costD deps visited + ds.length ≤ fuel →
        (dfsLoop deps fuel ds visited stack).isSome) := by
  intro fuel
  induction fuel with
  | zero =>
    constructor
    · intro t visited stack ht htv hsub hcost
      obtain ⟨succs, hl⟩ := Option.isSome_iff_exists.mp ((lookupA_isSome deps t).mpr ht)
      have := costD_lookup t succs deps visited hnd hl htv
      omega
    · intro ds visited stack hds hsub hcost
      cases ds with
      | nil => simp [dfsLoop]
      | cons d ds' => simp at hcost
  | succ fuel ih =>
    obtain ⟨ihcc, ihloop⟩ := ih
    constructor
    · intro t visited stack ht htv hsub hcost
      obtain ⟨succs, hl⟩ := Option.isSome_iff_exists.mp ((lookupA_isSome deps t).mpr ht)
      simp only [dfsCycleCheck, hl]
      have hdrop := costD_lookup t succs deps visited hnd hl htv
      have hsucc : ∀ d ∈ succs, d ∈ deps.map Prod.fst := by
        intro d hd
        exact hcl t d ⟨succs, hl, hd⟩
      have hloop := ihloop succs (sinsert visited t) (sinsert stack t) hsucc
        (sinsert_mono hsub) (by omega)
      cases hres : dfsLoop deps fuel succs (sinsert visited t) (sinsert stack t) with
      | none => rw [hres] at hloop; simp at hloop
      | some res =>
        obtain ⟨rb, v1, s1⟩ := res
        cases rb <;> simp
    · intro ds visited stack hds hsub hcost
      cases ds with
      | nil => simp [dfsLoop]
      | cons d ds' =>
        simp only [dfsLoop]
        by_cases hd : d ∈ visited
        · rw [if_pos hd]
          by_cases hdstack : d ∈ stack
          · rw [if_pos hdstack]; simp
          · rw [if_neg hdstack]
            apply ihloop ds' visited stack (fun x hx => hds x (List.mem_cons_of_mem _ hx)) hsub
            simp at hcost
            omega
        · rw [if_neg hd]
          have hdkey : d ∈ deps.map Prod.fst := hds d (List.mem_cons_self _ _)
          obtain ⟨succs, hl⟩ := Option.isSome_iff_exists.mp ((lookupA_isSome deps d).mpr hdkey)
          have hdrop := costD_lookup d succs deps visited hnd hl hd
          have hccs := ihcc d visited stack hdkey hd hsub (by simp at hcost; omega)
          cases hcc : dfsCycleCheck deps fuel d visited stack with
          | none => rw [hcc] at hccs; simp at hccs
          | some res =>
            obtain ⟨rb, v1, s1⟩ := res
            cases rb with
            | true => simp
            | false =>
              dsimp only
              obtain ⟨hgrow, hdv1, hrest⟩ :=
                ((dfs_growth deps fuel).1) d visited stack false v1 s1 hd hsub hcc
              have hs1 : s1 = stack := hrest rfl
              rw [hs1]
              apply ihloop ds' v1 stack (fun x hx => hds x (List.mem_cons_of_mem _ hx))
                (fun x hx => hgrow (hsub hx))
              have hsub1 : ∀ x, x ∈ sinsert visited d → x ∈ v1 := by
                intro x hx
                rw [mem_sinsert] at hx
                rcases hx with hx | rfl
                · exact hgrow hx
                · exact hdv1
              have := costD_mono deps hsub1
              simp only [List.length_cons] at hcost
              omega

/-! ## The outer validation loop -/

theorem cycleCheckFold_isSome (deps : List (String × List String))
    (hnd : (deps.map Prod.fst).Nodup) (hcl : DClosed deps) :
    ∀ (ks visited stack : List String), (∀ k ∈ ks, k ∈ deps.map Prod.fst) →
      stack ⊆ visited → (cycleCheckFold deps ks visited stack).isSome := by
  intro ks
  induction ks with
  | nil => intro visited stack _ _; simp [cycleCheckFold]
  | cons k ks' ih =>
    intro visited stack hks hsub
    simp only [cycleCheckFold]
    by_cases hk : k ∈ visited
    · rw [if_pos hk]
      exact ih visited stack (fun x hx => hks x (List.mem_cons_of_mem _ hx)) hsub
    · rw [if_neg hk]
      have hcost : costD deps visited ≤ sizeD deps + 1 := by
        have h1 : costD deps visited ≤ costD deps [] :=
          costD_mono deps (by intro x hx; simp at hx)
        rw [costD_nil] at h1
        omega
      have hsome := (dfs_fuel deps hnd hcl (sizeD deps + 1)).1 k visited stack
        (hks k (List.mem_cons_self _ _)) hk hsub hcost
      cases hcc : dfsCycleCheck deps (sizeD deps + 1) k visited stack with
      | none => rw [hcc] at hsome; simp at hsome
      | some res =>
        obtain ⟨rb, v1, s1⟩ := res
        cases rb with
        | true => simp
        | false =>
          dsimp only
          obtain ⟨hgrow, -, hrest⟩ := (dfs_growth deps (sizeD deps + 1)).1 k visited stack
            false v1 s1 hk hsub hcc
          exact ih v1 s1 (fun x hx => hks x (List.mem_cons_of_mem _ hx))
            (by rw [hrest rfl]; exact fun x hx => hgrow (hsub hx))

theorem cycleCheckFold_true (deps : List (String × List String)) :
    ∀ (ks visited : List String),
      cycleCheckFold deps ks visited [] = some true →
      ∃ n, Relation.TransGen (edgeA deps) n n := by
  intro ks
  induction ks with
  | nil => intro visited h; simp [cycleCheckFold] at h
  | cons k ks' ih =>
    intro visited h
    simp only [cycleCheckFold] at h
    by_cases hk : k ∈ visited
    · rw [if_pos hk] at h
      exact ih visited h
    · rw [if_neg hk] at h
      cases hcc : dfsCycleCheck deps (sizeD deps + 1) k visited [] with
      | none => rw [hcc] at h; simp at h
      | some res =>
        obtain ⟨rb, v1, s1⟩ := res
        rw [hcc] at h
        cases rb with
        | true =>
          exact (dfs_sound deps (sizeD deps + 1)).1 k visited [] v1 s1 hk
            (by intro x hx; simp at hx) (by simp) hcc
        | false =>
          dsimp only at h
          obtain ⟨-, -, hrest⟩ := (dfs_growth deps (sizeD deps + 1)).1 k visited []
            false v1 s1 hk (by intro x hx; simp at hx) hcc
          rw [hrest rfl] at h
          exact ih v1 h

theorem cycleCheckFold_false (deps : List (String × List String)) :
    ∀ (ks visited : List String), BlackInv deps visited [] →
      cycleCheckFold deps ks visited [] = some false →
      ∃ v', BlackInv deps v' [] ∧ (∀ x ∈ visited, x ∈ v') ∧ ∀ k ∈ ks, k ∈ v' := by
  intro ks
  induction ks with
  | nil =>
    intro visited hinv _
    exact ⟨visited, hinv, fun x hx => hx, by simp⟩
  | cons k ks' ih =>
    intro visited hinv h
    simp only [cycleCheckFold] at h
    by_cases hk : k ∈ visited
    · rw [if_pos hk] at h
      obtain ⟨v', hinv', hvis, hks⟩ := ih visited hinv h
      refine ⟨v', hinv', hvis, ?_⟩
      intro x hx
      rcases List.mem_cons.mp hx with rfl | hx'
      · exact hvis _ hk
      · exact hks x hx'
    · rw [if_neg hk] at h
      cases hcc : dfsCycleCheck deps (sizeD deps + 1) k visited [] with
      | none => rw [hcc] at h; simp at h
      | some res =>
        obtain ⟨rb, v1, s1⟩ := res
        rw [hcc] at h
        cases rb with
        | true => dsimp only at h; injection h with h; cases h
        | false =>
          dsimp only at h
          obtain ⟨hgrow, hkv1, hrest⟩ := (dfs_growth deps (sizeD deps + 1)).1 k visited []
            false v1 s1 hk (by intro x hx; simp at hx) hcc
          rw [hrest rfl] at h
          obtain ⟨hinv1, hkv, -⟩ := (dfs_complete deps (sizeD deps + 1)).1 k visited []
            v1 s1 hk (by intro x hx; simp at hx) hinv hcc
          obtain ⟨v', hinv', hvis, hks⟩ := ih v1 hinv1 h
          refine ⟨v', hinv', fun x hx => hvis _ (hgrow hx), ?_⟩
          intro x hx
          rcases List.mem_cons.mp hx with rfl | hx'
          · exact hvis _ hkv
          · exact hks x hx'

/-! ## Relating the two dictionaries and assembling the validation theorem -/

theorem lookupA_of_mem_nodup {α : Type} :
    ∀ {d : List (String × α)} {k : String} {v : α},
      (d.map Prod.fst).Nodup → (k, v) ∈ d → lookupA d k = some v := by
  intro d
  induction d with
  | nil => intro k v _ hm; simp at hm
  | cons p rest ih =>
    intro k v hnd hm
    obtain ⟨k', v'⟩ := p
    simp only [List.map_cons, List.nodup_cons] at hnd
    obtain ⟨hk', hnd'⟩ := hnd
    rcases List.mem_cons.mp hm with heq | hm'
    · injection heq with h1 h2
      subst h1; subst h2
      simp [lookupA]
    · have hkk' : k ≠ k' := by
        intro hc
        subst hc
        exact hk' (List.mem_map.mpr ⟨(k, v), hm', rfl⟩)
      rw [lookupA, if_neg hkk']
      exact ih hnd' hm'

theorem revEdge_iff_edgeA {prec : List (String × List String)}
    (hnd : (prec.map Prod.fst).Nodup) (a b : String) :
    revEdge prec a b ↔ edgeA prec b a := by
  constructor
  · rintro ⟨⟨k, l⟩, hm, hk, ha⟩
    dsimp at hk
    subst hk
    exact ⟨l, lookupA_of_mem_nodup hnd hm, ha⟩
  · rintro ⟨l, hl, ha⟩
    exact ⟨(b, l), lookupA_mem hl, rfl, ha⟩

theorem deps_cycle_iff {prec deps : List (String × List String)}
    (hnd : (prec.map Prod.fst).Nodup)
    (hb : buildDependencies prec [] = Except.ok deps) :
    (∃ n, Relation.TransGen (edgeA deps) n n) ↔ hasCycle prec := by
  have hedge : ∀ a b, edgeA deps a b ↔ edgeA prec b a := by
    intro a b
    rw [buildDependencies_ok_edge prec [] deps hb a b]
    have : ¬ edgeA [] a b := by
      rintro ⟨l, hl, -⟩
      simp [lookupA] at hl
    rw [revEdge_iff_edgeA hnd]
    constructor
    · rintro (he | he)
      · exact absurd he this
      · exact he
    · exact fun he => Or.inr he
  constructor
  · rintro ⟨n, hn⟩
    refine ⟨n, Relation.transGen_swap.mp ?_⟩
    exact Relation.TransGen.mono (fun x y hxy => (hedge x y).mp hxy) hn
  · rintro ⟨n, hn⟩
    refine ⟨n, ?_⟩
    have : Relation.TransGen (Function.swap (edgeA deps)) n n := by
      refine Relation.TransGen.mono ?_ hn
      intro x y hxy
      exact (hedge y x).mpr hxy
    exact Relation.transGen_swap.mp this

theorem validate_ok_elim {prec : List (String × List String)}
    (h : validatePrecedenceDict prec = Except.ok ()) :
    ∃ deps, buildDependencies prec [] = Except.ok deps ∧
      cycleCheckFold deps (deps.map Prod.fst) [] [] = some false := by
  unfold validatePrecedenceDict at h
  cases hb : buildDependencies prec [] with
  | error e => rw [hb] at h; cases h
  | ok deps =>
    rw [hb] at h
    dsimp only at h
    cases hf : cycleCheckFold deps (deps.map Prod.fst) [] [] with
    | none => rw [hf] at h; cases h
    | some b =>
      rw [hf] at h
      cases b with
      | true => dsimp only at h; cases h
      | false => exact ⟨deps, rfl, hf⟩

theorem validatePrecedenceDict_ok_iff (prec : List (String × List String))
    (hnd : (prec.map Prod.fst).Nodup) :
    validatePrecedenceDict prec = Except.ok () ↔ ¬ hasCycle prec := by
  constructor
  · intro h hcyc
    obtain ⟨deps, hb, hf⟩ := validate_ok_elim h
    obtain ⟨n, hn⟩ := (deps_cycle_iff hnd hb).mpr hcyc
    obtain ⟨v', hinv', -, hks⟩ := cycleCheckFold_false deps (deps.map Prod.fst) []
      (by intro b hb' _; simp at hb') hf
    have hnkey : n ∈ deps.map Prod.fst := by
      obtain ⟨c, hnc, -⟩ := (Relation.TransGen.head'_iff).mp hn
      obtain ⟨l, hl, -⟩ := hnc
      exact (lookupA_isSome deps n).mp (by simp [hl])
    have hnv : n ∈ v' := hks n hnkey
    exact (hinv' n hnv (by simp)).2 n Relation.ReflTransGen.refl hn
  · intro hnc
    have hno_self : ∀ p ∈ prec, p.1 ∉ p.2 := by
      rintro ⟨k, l⟩ hm hself
      exact hnc ⟨k, Relation.TransGen.single ⟨l, lookupA_of_mem_nodup hnd hm, hself⟩⟩
    obtain ⟨deps, hb⟩ := buildDependencies_ok_of_no_self prec [] hno_self
    have hdnd : (deps.map Prod.fst).Nodup := buildDependencies_ok_nodup prec [] deps (by simp) hb
    have hdcl : DClosed deps := by
      intro a b he
      have := (buildDependencies_ok_edge prec [] deps hb a b).mp he
      rcases this with he' | he'
      · obtain ⟨l, hl, -⟩ := he'
        simp [lookupA] at hl
      · obtain ⟨p, hp, hpb, -⟩ := he'
        have := (buildDependencies_ok_keys prec [] deps hb).1 p hp
        rw [hpb] at this
        exact this
    have hsome := cycleCheckFold_isSome deps hdnd hdcl (deps.map Prod.fst) [] []
      (fun k hk => hk) (by intro x hx; simp at hx)
    cases hf : cycleCheckFold deps (deps.map Prod.fst) [] [] with
    | none => rw [hf] at hsome; simp at hsome
    | some b =>
      cases b with
      | true =>
        obtain ⟨n, hn⟩ := cycleCheckFold_true deps (deps.map Prod.fst) [] hf
        exact absurd ((deps_cycle_iff hnd hb).mp ⟨n, hn⟩) hnc
      | false =>
        unfold validatePrecedenceDict
        rw [hb]
        dsimp only
        rw [hf]

theorem validate_cyclic (prec : List (String × List String))
    (hnd : (prec.map Prod.fst).Nodup) (hcyc : hasCycle prec) :
    ∃ msg, validatePrecedenceDict prec =
      Except.error (MaxparError.invalidPrecedenceDict msg) := by
  by_cases hself : ∃ p ∈ prec, p.1 ∈ p.2
  · obtain ⟨msg, hmsg⟩ := buildDependencies_error_of_self prec [] hself
    refine ⟨msg, ?_⟩
    unfold validatePrecedenceDict
    rw [hmsg]
  · push_neg at hself
    obtain ⟨deps, hb⟩ := buildDependencies_ok_of_no_self prec [] hself
    have hdnd : (deps.map Prod.fst).Nodup :=
      buildDependencies_ok_nodup prec [] deps (by simp) hb
    have hdcl : DClosed deps := by
      intro a b he
      rcases (buildDependencies_ok_edge prec [] deps hb a b).mp he with he' | he'
      · obtain ⟨l, hl, -⟩ := he'
        simp [lookupA] at hl
      · obtain ⟨p, hp, hpb, -⟩ := he'
        have := (buildDependencies_ok_keys prec [] deps hb).1 p hp
        rw [hpb] at this
        exact this
    have hsome := cycleCheckFold_isSome deps hdnd hdcl (deps.map Prod.fst) [] []
      (fun k hk => hk) (by intro x hx; simp at hx)
    cases hf : cycleCheckFold deps (deps.map Prod.fst) [] [] with
    | none => rw [hf] at hsome; simp at hsome
    | some b =>
      cases b with
      | true =>
        refine ⟨"Precedence dictionary contains a cycle", ?_⟩
        unfold validatePrecedenceDict
        rw [hb]
        dsimp only
        rw [hf]
      | false =>
        have hok : validatePrecedenceDict prec = Except.ok () := by
          unfold validatePrecedenceDict
          rw [hb]
          dsimp only
          rw [hf]
        exact absurd hcyc ((validatePrecedenceDict_ok_iff prec hnd).mp hok)

theorem buildTaskSystem_ok_of_valid (tasks : List Task)
    (prec : List (String × List String))
    (hnd : (prec.map Prod.fst).Nodup)
    (hentries : ∀ t ∈ tasks, (lookupA prec t.name).isSome)
    (hndt : (tasks.map Task.name).Nodup)
    (hkeys : ∀ p ∈ prec, p.1 ∈ tasks.map Task.name)
    (hacyc : ¬ hasCycle prec) :
    ∃ ts, buildTaskSystem tasks prec = Except.ok ts := by
  obtain ⟨d, hd⟩ := registerTasks_ok_of prec tasks [] hentries hndt (by simp)
  have hdk : d.map Prod.fst = tasks.map Task.name := by
    have := registerTasks_ok_eq prec tasks [] d hd
    simp only [List.nil_append] at this
    rw [this, List.map_map]
    rfl
  have hchk : checkPrecedenceKeys d prec = Except.ok () := by
    rw [checkPrecedenceKeys_ok_iff]
    intro p hp
    rw [hdk]
    exact hkeys p hp
  have hval : validatePrecedenceDict prec = Except.ok () :=
    (validatePrecedenceDict_ok_iff prec hnd).mpr hacyc
  refine ⟨{ tasks := d, precedence := prec }, ?_⟩
  rw [buildTaskSystem_validate hd hchk, hval]

/-! ## Claim C2 — cycles are rejected, valid acyclic mappings are accepted -/

/-- Claim C2: with a duplicate-free precedence dictionary (a Python dict
cannot repeat keys), (1) whenever the precedence mapping is cyclic (a
trivial self-dependency included) and construction reaches graph validation
(registration and key checks pass), construction fails with
`InvalidPrecedenceDictError` (the code's name for `InvalidGraphError`); and
(2) for every acyclic mapping in which every registered task has an entry,
no task name repeats, and every key is registered, construction succeeds. -/
theorem claimC2 (tasks : List Task) (prec : List (String × List String))
    (hnd : (prec.map Prod.fst).Nodup) :
    (∀ d, hasCycle prec → registerTasks prec tasks [] = Except.ok d →
      checkPrecedenceKeys d prec = Except.ok () →
      ∃ msg, buildTaskSystem tasks prec =
        Except.error (MaxparError.invalidPrecedenceDict msg)) ∧
    ((∀ t ∈ tasks, (lookupA prec t.name).isSome) → (tasks.map Task.name).Nodup →
      (∀ p ∈ prec, p.1 ∈ tasks.map Task.name) → ¬ hasCycle prec →
      ∃ ts, buildTaskSystem tasks prec = Except.ok ts) := by
  constructor
  · intro d hcyc hreg hchk
    obtain ⟨msg, hmsg⟩ := validate_cyclic prec hnd hcyc
    refine ⟨msg, ?_⟩
    rw [buildTaskSystem_validate hreg hchk, hmsg]
  · intro hentries hndt hkeys hnc
    exact buildTaskSystem_ok_of_valid tasks prec hnd hentries hndt hkeys hnc

/-- Witness for C2 at concrete inputs: the two-task cycle A ← B ← A is
rejected with `InvalidPrecedenceDictError`, and the acyclic six-task example
system of maxpar_test.py is accepted. -/
theorem claimC2_witness :
    (∃ msg, buildTaskSystem [taskA, ⟨"B", [], [], none⟩] [("A", ["B"]), ("B", ["A"])] =
      Except.error (MaxparError.invalidPrecedenceDict msg)) ∧
    ∃ ts, buildTaskSystem exTasks exPrec = Except.ok ts := by
  constructor
  · refine (claimC2 [taskA, ⟨"B", [], [], none⟩] [("A", ["B"]), ("B", ["A"])]
      (by decide)).1 [("A", taskA), ("B", ⟨"B", [], [], none⟩)] ?_ (by rfl) (by rfl)
    have e1 : edgeA [("A", ["B"]), ("B", ["A"])] "A" "B" := ⟨["B"], rfl, by simp⟩
    have e2 : edgeA [("A", ["B"]), ("B", ["A"])] "B" "A" := ⟨["A"], rfl, by simp⟩
    exact ⟨"A", Relation.TransGen.head e1 (Relation.TransGen.single e2)⟩
  · refine (claimC2 exTasks exPrec (by decide)).2 ?_ ?_ ?_ ?_
    · intro t ht
      fin_cases ht <;> simp [exPrec, lookupA]
    · decide
    · decide
    · exact (validatePrecedenceDict_ok_iff exPrec (by decide)).mp (by rfl)

/-! ## Dependency resolution: helper lemmas -/

theorem chain'_to_last_strict {R : String → String → Prop} :
    ∀ (l : List String) (tp a : String), List.Chain' R (l ++ [tp]) → a ∈ l →
      Relation.TransGen R a tp := by
  intro l
  induction l with
  | nil => intro tp a _ ha; simp at ha
  | cons x xs ih =>
    intro tp a hch ha
    rw [List.cons_append, List.chain'_cons'] at hch
    obtain ⟨hhead, hch'⟩ := hch
    rcases List.mem_cons.mp ha with rfl | ha'
    · cases hxs : xs with
      | nil =>
        subst hxs
        exact Relation.TransGen.single (hhead tp (by simp))
      | cons y ys =>
        subst hxs
        exact Relation.TransGen.head' (hhead y (by simp))
          (chain'_to_last (y :: ys) tp y hch' (by simp))
    · exact ih tp a hch' ha'

theorem snoc_inj {l m : List String} {t a : String} (h : l ++ [t] = m ++ [a]) :
    l = m ∧ t = a := by
  have h' := congrArg List.reverse h
  simp only [List.reverse_append, List.reverse_cons, List.reverse_nil, List.nil_append,
    List.cons_append] at h'
  injection h' with h1 h2
  refine ⟨?_, h1⟩
  have h3 := congrArg List.reverse h2
  simpa using h3

theorem append_singleton_split {l l₁ l₂ : List String} {t x : String}
    (h : l ++ [t] = l₁ ++ x :: l₂) :
    (l₂ = [] ∧ l₁ = l ∧ x = t) ∨ ∃ l₂', l₂ = l₂' ++ [t] ∧ l = l₁ ++ x :: l₂' := by
  rcases List.eq_nil_or_concat l₂ with rfl | ⟨l₂', a, hconcat⟩
  · have h' : l ++ [t] = l₁ ++ [x] := h
    obtain ⟨h1, h2⟩ := snoc_inj h'
    exact Or.inl ⟨rfl, h1.symm, h2.symm⟩
  · rw [List.concat_eq_append] at hconcat
    subst hconcat
    have h' : l ++ [t] = (l₁ ++ x :: l₂') ++ [a] := by rw [h]; simp
    obtain ⟨h1, h2⟩ := snoc_inj h'
    subst h2
    exact Or.inr ⟨l₂', rfl, h1⟩

theorem predsBefore_append_singleton {prec : List (String × List String)}
    {l : List String} {t : String}
    (hpb : PredsBefore prec l) (ht : ∀ p, edgeA prec t p → p ∈ l) :
    PredsBefore prec (l ++ [t]) := by
  intro l₁ x l₂ hsplit p hp
  rcases append_singleton_split hsplit with ⟨-, rfl, rfl⟩ | ⟨l₂', -, hl⟩
  · exact ht p hp
  · exact hpb l₁ x l₂' hl p hp

theorem visClosed_reach {prec : List (String × List String)} {vis : List String}
    (hvc : VisClosed prec vis) {t x : String} (ht : t ∈ vis)
    (hr : Relation.ReflTransGen (edgeA prec) t x) : x ∈ vis := by
  induction hr with
  | refl => exact ht
  | tail hseg hstep ih => exact hvc _ ih _ hstep

theorem rGet_post (prec : List (String × List String)) (hacyc : ¬ hasCycle prec) :
    ∀ fuel : Nat,
      (∀ t deps vis deps' vis',
        (∀ x, x ∈ deps ↔ x ∈ vis) → deps.Nodup → VisClosed prec vis →
        PredsBefore prec deps →
        rGetDependencies prec fuel t deps vis = some (deps', vis') →
        (∀ x, x ∈ deps' ↔ x ∈ vis') ∧ deps'.Nodup ∧ VisClosed prec vis' ∧
          PredsBefore prec deps' ∧ (∃ dl, deps' = deps ++ dl) ∧
          (∀ x, x ∈ vis' ↔ x ∈ vis ∨ Relation.ReflTransGen (edgeA prec) t x) ∧
          (t ∉ vis → ∃ pre, deps' = pre ++ [t])) ∧
      (∀ ss deps vis deps' vis',
        (∀ x, x ∈ deps ↔ x ∈ vis) → deps.Nodup → VisClosed prec vis →
        PredsBefore prec deps →
        rGetLoop prec fuel ss deps vis = some (deps', vis') →
        (∀ x, x ∈ deps' ↔ x ∈ vis') ∧ deps'.Nodup ∧ VisClosed prec vis' ∧
          PredsBefore prec deps' ∧ (∃ dl, deps' = deps ++ dl) ∧
          (∀ x, x ∈ vis' ↔ x ∈ vis ∨ ∃ s ∈ ss, Relation.ReflTransGen (edgeA prec) s x)) := by
  intro fuel
  induction fuel with
  | zero =>
    constructor
    · intro t deps vis deps' vis' _ _ _ _ h
      simp [rGetDependencies] at h
    · intro ss deps vis deps' vis' hset hnd hvc hpb h
      cases ss with
      | nil =>
        simp only [rGetLoop] at h
        injection h with h
        injection h with h1 h2
        subst h1; subst h2
        exact ⟨hset, hnd, hvc, hpb, ⟨[], by simp⟩, by simp⟩
      | cons s ss' => simp [rGetLoop] at h
  | succ fuel ih =>
    obtain ⟨ihget, ihloop⟩ := ih
    constructor
    · intro t deps vis deps' vis' hset hnd hvc hpb h
      simp only [rGetDependencies] at h
      by_cases htv : t ∈ vis
      · rw [if_pos htv] at h
        injection h with h
        injection h with h1 h2
        subst h1; subst h2
        refine ⟨hset, hnd, hvc, hpb, ⟨[], by simp⟩, ?_, fun hc => absurd htv hc⟩
        intro x
        constructor
        · exact fun hx => Or.inl hx
        · rintro (hx | hx)
          · exact hx
          · exact visClosed_reach hvc htv hx
      · rw [if_neg htv] at h
        cases hl : lookupA prec t with
        | none => rw [hl] at h; simp at h
        | some subs =>
          rw [hl] at h
          dsimp only at h
          have hedge_t : ∀ p, edgeA prec t p → p ∈ subs := by
            rintro p ⟨l, hl2, hpl⟩
            rw [hl] at hl2
            injection hl2 with hl2
            subst hl2
            exact hpl
          by_cases hsubs : subs = []
          · rw [if_pos hsubs] at h
            injection h with h
            injection h with h1 h2
            subst h1; subst h2
            have htd : t ∉ deps := fun hc => htv ((hset t).mp hc)
            refine ⟨?_, ?_, ?_, ?_, ⟨[t], rfl⟩, ?_, fun _ => ⟨deps, rfl⟩⟩
            · intro x
              rw [List.mem_append, mem_sinsert, List.mem_singleton, hset x]
            · simp [List.nodup_append, hnd, htd]
            · intro v hv p hp
              rcases (mem_sinsert vis t v).mp hv with hv' | rfl
              · exact subset_sinsert _ _ (hvc v hv' p hp)
              · have := hedge_t p hp
                rw [hsubs] at this
                simp at this
            · refine predsBefore_append_singleton hpb ?_
              intro p hp
              have := hedge_t p hp
              rw [hsubs] at this
              simp at this
            · intro x
              rw [mem_sinsert]
              constructor
              · rintro (hx | rfl)
                · exact Or.inl hx
                · exact Or.inr Relation.ReflTransGen.refl
              · rintro (hx | hx)
                · exact Or.inl hx
                · rcases Relation.ReflTransGen.cases_head hx with rfl | ⟨c, hc, -⟩
                  · exact Or.inr rfl
                  · have := hedge_t c hc
                    rw [hsubs] at this
                    simp at this
          · rw [if_neg hsubs] at h
            cases hloop : rGetLoop prec fuel subs deps vis with
            | none => rw [hloop] at h; simp at h
            | some res =>
              obtain ⟨dstar, vstar⟩ := res
              rw [hloop] at h
              dsimp only at h
              injection h with h
              injection h with h1 h2
              subst h1; subst h2
              obtain ⟨hset1, hnd1, hvc1, hpb1, ⟨dl, hdl⟩, hiff1⟩ :=
                ihloop subs deps vis dstar vstar hset hnd hvc hpb hloop
              have htvstar : t ∉ vstar := by
                intro hc
                rcases (hiff1 t).mp hc with hc' | ⟨s, hs, hrs⟩
                · exact htv hc'
                · exact hacyc ⟨t, Relation.TransGen.head' ⟨subs, hl, hs⟩ hrs⟩
              have htd : t ∉ dstar := fun hc => htvstar ((hset1 t).mp hc)
              refine ⟨?_, ?_, ?_, ?_, ⟨dl ++ [t], by rw [hdl]; simp⟩, ?_, fun _ => ⟨dstar, rfl⟩⟩
              · intro x
                rw [List.mem_append, mem_sinsert, List.mem_singleton, hset1 x]
              · simp [List.nodup_append, hnd1, htd]
              · intro v hv p hp
                rcases (mem_sinsert vstar t v).mp hv with hv' | rfl
                · exact subset_sinsert _ _ (hvc1 v hv' p hp)
                · have hps := hedge_t p hp
                  refine subset_sinsert _ _ ?_
                  exact (hiff1 p).mpr (Or.inr ⟨p, hps, Relation.ReflTransGen.refl⟩)
              · refine predsBefore_append_singleton hpb1 ?_
                intro p hp
                have hps := hedge_t p hp
                exact (hset1 p).mpr ((hiff1 p).mpr (Or.inr ⟨p, hps, Relation.ReflTransGen.refl⟩))
              · intro x
                rw [mem_sinsert]
                constructor
                · rintro (hx | rfl)
                  · rcases (hiff1 x).mp hx with hx' | ⟨s, hs, hrs⟩
                    · exact Or.inl hx'
                    · exact Or.inr (Relation.ReflTransGen.head ⟨subs, hl, hs⟩ hrs)
                  · exact Or.inr Relation.ReflTransGen.refl
                · rintro (hx | hx)
                  · exact Or.inl ((hiff1 x).mpr (Or.inl hx))
                  · rcases Relation.ReflTransGen.cases_head hx with rfl | ⟨c, hc, hcx⟩
                    · exact Or.inr rfl
                    · exact Or.inl ((hiff1 x).mpr (Or.inr ⟨c, hedge_t c hc, hcx⟩))
    · intro ss deps vis deps' vis' hset hnd hvc hpb h
      cases ss with
      | nil =>
        simp only [rGetLoop] at h
        injection h with h
        injection h with h1 h2
        subst h1; subst h2
        exact ⟨hset, hnd, hvc, hpb, ⟨[], by simp⟩, by simp⟩
      | cons s ss' =>
        simp only [rGetLoop] at h
        cases hg : rGetDependencies prec fuel s deps vis with
        | none => rw [hg] at h; simp at h
        | some res =>
          obtain ⟨d1, v1⟩ := res
          rw [hg] at h
          dsimp only at h
          obtain ⟨hset1, hnd1, hvc1, hpb1, ⟨dl1, hdl1⟩, hiff1, -⟩ :=
            ihget s deps vis d1 v1 hset hnd hvc hpb hg
          obtain ⟨hset2, hnd2, hvc2, hpb2, ⟨dl2, hdl2⟩, hiff2⟩ :=
            ihloop ss' d1 v1 deps' vis' hset1 hnd1 hvc1 hpb1 h
          refine ⟨hset2, hnd2, hvc2, hpb2, ⟨dl1 ++ dl2, by rw [hdl2, hdl1]; simp⟩, ?_⟩
          intro x
          rw [hiff2 x]
          constructor
          · rintro (hx | ⟨s', hs', hrs'⟩)
            · rcases (hiff1 x).mp hx with hx' | hx'
              · exact Or.inl hx'
              · exact Or.inr ⟨s, List.mem_cons_self _ _, hx'⟩
            · exact Or.inr ⟨s', List.mem_cons_of_mem _ hs', hrs'⟩
          · rintro (hx | ⟨s', hs', hrs'⟩)
            · exact Or.inl ((hiff1 x).mpr (Or.inl hx))
            · rcases List.mem_cons.mp hs' with rfl | hs''
              · exact Or.inl ((hiff1 x).mpr (Or.inr hrs'))
              · exact Or.inr ⟨s', hs'', hrs'⟩

theorem precClosed_dClosed {prec : List (String × List String)}
    (h : PrecClosed prec) : DClosed prec := by
  rintro a b ⟨l, hl, hbl⟩
  exact h (a, l) (lookupA_mem hl) b hbl

theorem rGet_fuel (prec : List (String × List String))
    (hnd : (prec.map Prod.fst).Nodup) (hcl : DClosed prec)
    (hacyc : ¬ hasCycle prec) :
    ∀ fuel : Nat,
      (∀ t path deps vis, t ∈ prec.map Prod.fst →
        List.Chain' (edgeA prec) (path ++ [t]) →
        costD prec path ≤ fuel →
        (rGetDependencies prec fuel t deps vis).isSome) ∧
      (∀ ss path tp deps vis, (∀ s ∈ ss, edgeA prec tp s) →
        List.Chain' (edgeA prec) (path ++ [tp]) → tp ∉ path →
        costD prec (sinsert path tp) + ss.length ≤ fuel →
        (rGetLoop prec fuel ss deps vis).isSome) := by
  intro fuel
  induction fuel with
  | zero =>
    constructor
    · intro t path deps vis ht hch hcost
      have htp : t ∉ path := by
        intro hc
        exact hacyc ⟨t, chain'_to_last_strict path t t hch hc⟩
      obtain ⟨subs, hl⟩ := Option.isSome_iff_exists.mp ((lookupA_isSome prec t).mpr ht)
      have := costD_lookup t subs prec path hnd hl htp
      omega
    · intro ss path tp deps vis hss hch htp hcost
      cases ss with
      | nil => simp [rGetLoop]
      | cons s ss' => simp at hcost
  | succ fuel ih =>
    obtain ⟨ihget, ihloop⟩ := ih
    constructor
    · intro t path deps vis ht hch hcost
      have htp : t ∉ path := by
        intro hc
        exact hacyc ⟨t, chain'_to_last_strict path t t hch hc⟩
      obtain ⟨subs, hl⟩ := Option.isSome_iff_exists.mp ((lookupA_isSome prec t).mpr ht)
      simp only [rGetDependencies]
      by_cases htv : t ∈ vis
      · rw [if_pos htv]; simp
      · rw [if_neg htv, hl]
        dsimp only
        by_cases hsubs : subs = []
        · rw [if_pos hsubs]; simp
        · rw [if_neg hsubs]
          have hdrop := costD_lookup t subs prec path hnd hl htp
          have hloopSome := ihloop subs path t deps vis
            (fun s hs => ⟨subs, hl, hs⟩) hch htp (by omega)
          cases hres : rGetLoop prec fuel subs deps vis with
          | none => rw [hres] at hloopSome; simp at hloopSome
          | some res => obtain ⟨d1, v1⟩ := res; simp
    · intro ss path tp deps vis hss hch htp hcost
      cases ss with
      | nil => simp [rGetLoop]
      | cons s ss' =>
        simp only [rGetLoop]
        have hedge : edgeA prec tp s := hss s (List.mem_cons_self _ _)
        have hskey : s ∈ prec.map Prod.fst := hcl tp s hedge
        have hpath : sinsert path tp = path ++ [tp] := sinsert_of_not_mem htp
        have hchs : List.Chain' (edgeA prec) ((path ++ [tp]) ++ [s]) :=
          chain'_snoc hch hedge
        have hgetSome := ihget s (path ++ [tp]) deps vis hskey hchs
          (by rw [← hpath]; simp only [List.length_cons] at hcost; omega)
        cases hres : rGetDependencies prec fuel s deps vis with
        | none => rw [hres] at hgetSome; simp at hgetSome
        | some res =>
          obtain ⟨d1, v1⟩ := res
          dsimp only
          exact ihloop ss' path tp d1 v1
            (fun x hx => hss x (List.mem_cons_of_mem _ hx)) hch htp
            (by simp only [List.length_cons] at hcost; omega)

theorem getDependencies_ok (ts : TaskSystem)
    (hnd : (ts.precedence.map Prod.fst).Nodup) (hcl : DClosed ts.precedence)
    (hacyc : ¬ hasCycle ts.precedence) (t : String)
    (ht : t ∈ ts.precedence.map Prod.fst) :
    ∃ l, getDependencies ts t = Except.ok l ∧
      (∀ x, x ∈ l ↔ depRel ts.precedence t x) ∧ l.Nodup ∧ t ∉ l ∧
      PredsBefore ts.precedence l ∧
      ∀ x ∈ l, x ∈ ts.precedence.map Prod.fst := by
  have hsome := (rGet_fuel ts.precedence hnd hcl hacyc (sizeD ts.precedence + 1)).1
    t [] [] [] ht (by simp) (by rw [costD_nil]; omega)
  cases hres : rGetDependencies ts.precedence (sizeD ts.precedence + 1) t [] [] with
  | none => rw [hres] at hsome; simp at hsome
  | some res =>
    obtain ⟨deps', vis'⟩ := res
    obtain ⟨hset, hndl, hvc, hpb, -, hiff, hlast⟩ :=
      (rGet_post ts.precedence hacyc (sizeD ts.precedence + 1)).1 t [] [] deps' vis'
        (by simp) (by simp) (by intro v hv; simp at hv) (by intro l₁ x l₂ hx; simp at hx) hres
    obtain ⟨pre, hpre⟩ := hlast (by simp)
    have hvis : ∀ x, x ∈ vis' ↔ Relation.ReflTransGen (edgeA ts.precedence) t x := by
      intro x
      rw [hiff x]
      simp
    have hget : getDependencies ts t = Except.ok pre := by
      unfold getDependencies
      obtain ⟨l0, hl0⟩ := Option.isSome_iff_exists.mp ((lookupA_isSome _ t).mpr ht)
      rw [hl0]
      dsimp only
      rw [hres]
      dsimp only
      rw [hpre]
      simp
    have htpre : t ∉ pre := by
      have h2 : deps'.Nodup := hndl
      rw [hpre] at h2
      have hdisj := List.disjoint_of_nodup_append h2
      exact fun hc => hdisj hc (by simp)
    refine ⟨pre, hget, ?_, ?_, htpre, ?_, ?_⟩
    · intro x
      constructor
      · intro hx
        have hxd : x ∈ deps' := by rw [hpre]; exact List.mem_append_left _ hx
        have hrtg : Relation.ReflTransGen (edgeA ts.precedence) t x :=
          (hvis x).mp ((hset x).mp hxd)
        rcases Relation.ReflTransGen.cases_head hrtg with rfl | ⟨c, hc, hcx⟩
        · exact absurd hx htpre
        · exact Relation.TransGen.head' hc hcx
      · intro hx
        have hrtg : Relation.ReflTransGen (edgeA ts.precedence) t x :=
          hx.to_reflTransGen
        have hxd : x ∈ deps' := (hset x).mpr ((hvis x).mpr hrtg)
        rw [hpre] at hxd
        rcases List.mem_append.mp hxd with hx' | hx'
        · exact hx'
        · simp at hx'
          subst hx'
          exact absurd ⟨x, hx⟩ hacyc
    · have : deps'.Nodup := hndl
      rw [hpre] at this
      exact this.of_append_left
    · intro l₁ x l₂ hsplit p hp
      refine hpb l₁ x (l₂ ++ [t]) ?_ p hp
      rw [hpre, hsplit]
      simp
    · intro x hx
      have hxd : x ∈ deps' := by rw [hpre]; exact List.mem_append_left _ hx
      have hrtg := (hvis x).mp ((hset x).mp hxd)
      rcases Relation.ReflTransGen.cases_head hrtg with rfl | ⟨c, hc, hcx⟩
      · exact ht
      · rcases Relation.ReflTransGen.cases_tail hcx with heq | ⟨m, hm, hmx⟩
        · rw [heq]
          exact hcl t c hc
        · exact hcl m x hmx

theorem buildOk_facts {tasks : List Task} {prec : List (String × List String)}
    {ts : TaskSystem} (hb : buildTaskSystem tasks prec = Except.ok ts) :
    ts.precedence = prec ∧
      ts.tasks = (tasks.map fun t => (t.name, t)) ∧
      (∀ n, (lookupA ts.tasks n).isSome ↔ n ∈ prec.map Prod.fst) ∧
      validatePrecedenceDict prec = Except.ok () := by
  obtain ⟨hreg, hchk, hval, hpre⟩ := buildTaskSystem_ok_elim hb
  have heq : ts.tasks = tasks.map fun t => (t.name, t) := by
    simpa using registerTasks_ok_eq prec tasks [] ts.tasks hreg
  have hkeys : ts.tasks.map Prod.fst = tasks.map Task.name := by
    rw [heq, List.map_map]; rfl
  obtain ⟨hent, -, -⟩ := registerTasks_ok_implies prec tasks [] ts.tasks hreg
  refine ⟨hpre, heq, ?_, hval⟩
  intro n
  rw [lookupA_isSome, hkeys]
  constructor
  · intro hn
    obtain ⟨u, hu, rfl⟩ := List.mem_map.mp hn
    exact (lookupA_isSome prec u.name).mp (hent u hu)
  · intro hn
    rw [checkPrecedenceKeys_ok_iff] at hchk
    obtain ⟨p, hp, rfl⟩ := List.mem_map.mp hn
    have := hchk p hp
    rwa [hkeys] at this

/-! ## Claim C3 — what `get_dependencies` returns -/

/-- Claim C3: on a validly constructed system (duplicate-free dict keys and
the spec's name-closure invariant assumed, since construction does not check
predecessor values — see C1), `get_dependencies` of a registered name
returns exactly the transitive predecessors, duplicate-free, never
containing the name itself; a task with an empty predecessor set yields the
empty sequence; and an unregistered name raises `TaskNotFoundError` (the
code's name for `UnknownTaskError`). -/
theorem claimC3 (tasks : List Task) (prec : List (String × List String))
    (ts : TaskSystem) (hb : buildTaskSystem tasks prec = Except.ok ts)
    (hnd : (prec.map Prod.fst).Nodup) (hcl : PrecClosed prec) :
    (∀ n, (lookupA ts.tasks n).isSome →
      ∃ l, getDependencies ts n = Except.ok l ∧
        (∀ x, x ∈ l ↔ depRel prec n x) ∧ l.Nodup ∧ n ∉ l ∧
        (lookupA prec n = some [] → l = [])) ∧
    ∀ m, lookupA ts.tasks m = none →
      getDependencies ts m = Except.error (MaxparError.taskNotFound m) := by
  obtain ⟨hpre, heq, hkiff, hval⟩ := buildOk_facts hb
  have hacyc : ¬ hasCycle prec := (validatePrecedenceDict_ok_iff prec hnd).mp hval
  constructor
  · intro n hn
    obtain ⟨l, hget, hiff, hndl, hnl, hpb, -⟩ := getDependencies_ok ts
      (by rw [hpre]; exact hnd) (by rw [hpre]; exact precClosed_dClosed hcl)
      (by rw [hpre]; exact hacyc) n (by rw [hpre]; exact (hkiff n).mp hn)
    rw [hpre] at hiff
    refine ⟨l, hget, hiff, hndl, hnl, ?_⟩
    intro hempty
    rw [List.eq_nil_iff_forall_not_mem]
    intro x hx
    have := (hiff x).mp hx
    obtain ⟨c, hc, -⟩ := (Relation.TransGen.head'_iff).mp this
    obtain ⟨l', hl', hcl'⟩ := hc
    rw [hempty] at hl'
    injection hl' with hl'
    subst hl'
    simp at hcl'
  · intro m hm
    have hmk : m ∉ prec.map Prod.fst := by
      intro hc
      have := (hkiff m).mpr hc
      rw [hm] at this
      simp at this
    have : lookupA ts.precedence m = none := by
      rw [hpre]
      exact (lookupA_eq_none prec m).mpr hmk
    unfold getDependencies
    rw [this]

/-- Witness for C3 on the six-task example: the dependencies of "T5". -/
theorem claimC3_witness :
    ∃ l, getDependencies exSys "T5" = Except.ok l ∧
      (∀ x, x ∈ l ↔ depRel exPrec "T5" x) ∧ l.Nodup ∧ "T5" ∉ l ∧
      (lookupA exPrec "T5" = some [] → l = []) := by
  exact (claimC3 exTasks exPrec exSys (by rfl) (by decide) (by decide)).1 "T5" (by rfl)

/-! ## Claim C4 — the order `get_dependencies` returns -/

theorem predsBefore_trans {prec : List (String × List String)} {l : List String}
    (hpb : PredsBefore prec l) {a b : String}
    (htg : Relation.TransGen (edgeA prec) a b) :
    ∀ l₁ l₂, l = l₁ ++ a :: l₂ → b ∈ l₁ := by
  induction htg using Relation.TransGen.head_induction_on with
  | base h =>
    intro l₁ l₂ hsplit
    exact hpb l₁ _ l₂ hsplit _ h
  | ih h htg' ihc =>
    rename_i a' c'
    intro l₁ l₂ hsplit
    have hc := hpb l₁ a' l₂ hsplit c' h
    obtain ⟨u, w, rfl⟩ := List.append_of_mem hc
    have hb := ihc u (w ++ a' :: l₂) (by rw [hsplit]; simp)
    exact List.mem_append_left _ hb

/-- Claim C4: the sequence `get_dependencies` returns is
dependency-consistent: if `a` appears before `b` in the result, `a` is not
a transitive dependent of `b`. -/
theorem claimC4 (tasks : List Task) (prec : List (String × List String))
    (ts : TaskSystem) (hb : buildTaskSystem tasks prec = Except.ok ts)
    (hnd : (prec.map Prod.fst).Nodup) (hcl : PrecClosed prec)
    (n : String) (hn : (lookupA ts.tasks n).isSome)
    (l : List String) (hget : getDependencies ts n = Except.ok l) :
    ∀ l₁ a l₂, l = l₁ ++ a :: l₂ → ∀ b ∈ l₂, ¬ depRel prec a b := by
  obtain ⟨hpre, heq, hkiff, hval⟩ := buildOk_facts hb
  have hacyc : ¬ hasCycle prec := (validatePrecedenceDict_ok_iff prec hnd).mp hval
  obtain ⟨l', hget', hiff, hndl, hnl, hpb, -⟩ := getDependencies_ok ts
    (by rw [hpre]; exact hnd) (by rw [hpre]; exact precClosed_dClosed hcl)
    (by rw [hpre]; exact hacyc) n (by rw [hpre]; exact (hkiff n).mp hn)
  rw [hget'] at hget
  injection hget with hget
  subst hget
  rw [hpre] at hpb
  intro l₁ a l₂ hsplit b hbl₂ hdep
  have hb₁ : b ∈ l₁ := predsBefore_trans hpb hdep l₁ l₂ hsplit
  have hndsplit : (l₁ ++ a :: l₂).Nodup := by rw [← hsplit]; exact hndl
  have hdisj := List.disjoint_of_nodup_append hndsplit
  exact hdisj hb₁ (List.mem_cons_of_mem _ hbl₂)

/-- Witness for C4 on the six-task example: in the dependency list of "T6",
"T2" appears before "T3", and indeed "T2" does not depend on "T3". -/
theorem claimC4_witness : ¬ depRel exPrec "T2" "T3" := by
  exact claimC4 exTasks exPrec exSys (by rfl) (by decide) (by decide) "T6" (by rfl)
    ["T1", "T2", "T3", "T4", "T5"] (by rfl) ["T1"] "T2" ["T3", "T4", "T5"] (by rfl)
    "T3" (by simp)

/-! ## The execution queue shared by `run_seq` and `run` -/

theorem transBefore_append_singleton {prec : List (String × List String)}
    {l : List String} {t : String}
    (hpb : TransBefore prec l) (ht : ∀ p, depRel prec t p → p ∈ l) :
    TransBefore prec (l ++ [t]) := by
  intro l₁ x l₂ hsplit p hp
  rcases append_singleton_split hsplit with ⟨-, rfl, rfl⟩ | ⟨l₂', -, hl⟩
  · exact ht p hp
  · exact hpb l₁ x l₂' hl p hp

theorem getDependencies_ok_key {ts : TaskSystem} {t : String} {deps : List String}
    (h : getDependencies ts t = Except.ok deps) : t ∈ ts.precedence.map Prod.fst := by
  unfold getDependencies at h
  cases hl : lookupA ts.precedence t with
  | none => rw [hl] at h; cases h
  | some l => exact (lookupA_isSome _ t).mp (by simp [hl])

theorem queue_post (ts : TaskSystem)
    (hnd : (ts.precedence.map Prod.fst).Nodup) (hcl : DClosed ts.precedence)
    (hacyc : ¬ hasCycle ts.precedence) :
    ∀ fuel : Nat,
      (∀ t seq vis seq' vis',
        seq = vis.map (fun n => lookupA ts.tasks n) → vis.Nodup →
        (∀ v ∈ vis, v ∈ ts.precedence.map Prod.fst) →
        TransBefore ts.precedence vis →
        rGetTasksQueue ts fuel t seq vis = some (seq', vis') →
        seq' = vis'.map (fun n => lookupA ts.tasks n) ∧ vis'.Nodup ∧
          (∀ v ∈ vis', v ∈ ts.precedence.map Prod.fst) ∧
          TransBefore ts.precedence vis' ∧ vis ⊆ vis' ∧ t ∈ vis' ∧
          ∀ x ∈ vis', x ∈ vis ∨ Relation.ReflTransGen (edgeA ts.precedence) t x) ∧
      (∀ ds seq vis seq' vis',
        seq = vis.map (fun n => lookupA ts.tasks n) → vis.Nodup →
        (∀ v ∈ vis, v ∈ ts.precedence.map Prod.fst) →
        TransBefore ts.precedence vis →
        rQueueLoop ts fuel ds seq vis = some (seq', vis') →
        seq' = vis'.map (fun n => lookupA ts.tasks n) ∧ vis'.Nodup ∧
          (∀ v ∈ vis', v ∈ ts.precedence.map Prod.fst) ∧
          TransBefore ts.precedence vis' ∧ vis ⊆ vis' ∧
          (∀ d ∈ ds, d ∈ vis') ∧
          ∀ x ∈ vis', x ∈ vis ∨ ∃ d ∈ ds, Relation.ReflTransGen (edgeA ts.precedence) d x) := by
  intro fuel
  induction fuel with
  | zero =>
    constructor
    · intro t seq vis seq' vis' _ _ _ _ h
      simp [rGetTasksQueue] at h
    · intro ds seq vis seq' vis' hseq hndv hkeys htb h
      cases ds with
      | nil =>
        simp only [rQueueLoop] at h
        injection h with h
        injection h with h1 h2
        subst h1; subst h2
        exact ⟨hseq, hndv, hkeys, htb, fun x hx => hx, by simp, fun x hx => Or.inl hx⟩
      | cons d ds' => simp [rQueueLoop] at h
  | succ fuel ih =>
    obtain ⟨ihq, ihloop⟩ := ih
    constructor
    · intro t seq vis seq' vis' hseq hndv hkeys htb h
      simp only [rGetTasksQueue] at h
      by_cases htv : t ∈ vis
      · rw [if_pos htv] at h
        injection h with h
        injection h with h1 h2
        subst h1; subst h2
        exact ⟨hseq, hndv, hkeys, htb, fun x hx => hx, htv, fun x hx => Or.inl hx⟩
      · rw [if_neg htv] at h
        cases hdeps : getDependencies ts t with
        | error e => rw [hdeps] at h; simp at h
        | ok deps =>
          rw [hdeps] at h
          dsimp only at h
          have tkey := getDependencies_ok_key hdeps
          obtain ⟨l, hget', hiff, hndl, hnl, hpbl, hlkeys⟩ :=
            getDependencies_ok ts hnd hcl hacyc t tkey
          rw [hdeps] at hget'
          injection hget' with hld
          subst hld
          by_cases hcond : (!(deps.isEmpty || deps.all fun d => vis.contains d)) = true
          · rw [if_pos hcond] at h
            cases hloop : rQueueLoop ts fuel deps seq vis with
            | none => rw [hloop] at h; simp at h
            | some res =>
              obtain ⟨sstar, vstar⟩ := res
              rw [hloop] at h
              dsimp only at h
              injection h with h
              injection h with h1 h2
              subst h1; subst h2
              obtain ⟨hseq1, hndv1, hkeys1, htb1, hgrow1, hdall, hB1⟩ :=
                ihloop deps seq vis sstar vstar hseq hndv hkeys htb hloop
              have htvstar : t ∉ vstar := by
                intro hc
                rcases hB1 t hc with hc' | ⟨d, hd, hrtg⟩
                · exact htv hc'
                · exact hacyc ⟨t, Relation.TransGen.trans_left ((hiff d).mp hd) hrtg⟩
              refine ⟨?_, ?_, ?_, ?_, ?_, ?_, ?_⟩
              · rw [sinsert_of_not_mem htvstar, hseq1]
                simp
              · rw [sinsert_of_not_mem htvstar]
                simp [List.nodup_append, hndv1, htvstar]
              · intro v hv
                rcases (mem_sinsert vstar t v).mp hv with hv' | rfl
                · exact hkeys1 v hv'
                · exact tkey
              · rw [sinsert_of_not_mem htvstar]
                refine transBefore_append_singleton htb1 ?_
                intro p hp
                exact hdall p ((hiff p).mpr hp)
              · exact fun x hx => subset_sinsert _ _ (hgrow1 hx)
              · exact sinsert_self_mem _ _
              · intro x hx
                rcases (mem_sinsert vstar t x).mp hx with hx' | rfl
                · rcases hB1 x hx' with hx'' | ⟨d, hd, hrtg⟩
                  · exact Or.inl hx''
                  · refine Or.inr (Relation.ReflTransGen.trans ?_ hrtg)
                    exact ((hiff d).mp hd).to_reflTransGen
                · exact Or.inr Relation.ReflTransGen.refl
          · rw [if_neg hcond] at h
            injection h with h
            injection h with h1 h2
            subst h1; subst h2
            have hdone : ∀ p, depRel ts.precedence t p → p ∈ vis := by
              intro p hp
              have hpdeps : p ∈ deps := (hiff p).mpr hp
              have hcond' : (deps.isEmpty || deps.all fun d => vis.contains d) = true := by
                cases hb : (deps.isEmpty || deps.all fun d => vis.contains d)
                · rw [hb] at hcond; simp at hcond
                · rfl
              rcases Bool.or_eq_true_iff.mp hcond' with hb | hb
              · rw [List.isEmpty_iff] at hb
                rw [hb] at hpdeps
                simp at hpdeps
              · rw [List.all_eq_true] at hb
                have := hb p hpdeps
                simpa using this
            refine ⟨?_, ?_, ?_, ?_, ?_, ?_, ?_⟩
            · rw [sinsert_of_not_mem htv, hseq]
              simp
            · rw [sinsert_of_not_mem htv]
              simp [List.nodup_append, hndv, htv]
            · intro v hv
              rcases (mem_sinsert vis t v).mp hv with hv' | rfl
              · exact hkeys v hv'
              · exact tkey
            · rw [sinsert_of_not_mem htv]
              exact transBefore_append_singleton htb hdone
            · exact fun x hx => subset_sinsert _ _ hx
            · exact sinsert_self_mem _ _
            · intro x hx
              rcases (mem_sinsert vis t x).mp hx with hx' | rfl
              · exact Or.inl hx'
              · exact Or.inr Relation.ReflTransGen.refl
    · intro ds seq vis seq' vis' hseq hndv hkeys htb h
      cases ds with
      | nil =>
        simp only [rQueueLoop] at h
        injection h with h
        injection h with h1 h2
        subst h1; subst h2
        exact ⟨hseq, hndv, hkeys, htb, fun x hx => hx, by simp, fun x hx => Or.inl hx⟩
      | cons d ds' =>
        simp only [rQueueLoop] at h
        cases hq : rGetTasksQueue ts fuel d seq vis with
        | none => rw [hq] at h; simp at h
        | some res =>
          obtain ⟨s1, v1⟩ := res
          rw [hq] at h
          dsimp only at h
          obtain ⟨hseq1, hndv1, hkeys1, htb1, hgrow1, hdv1, hB1⟩ :=
            ihq d seq vis s1 v1 hseq hndv hkeys htb hq
          obtain ⟨hseq2, hndv2, hkeys2, htb2, hgrow2, hdall2, hB2⟩ :=
            ihloop ds' s1 v1 seq' vis' hseq1 hndv1 hkeys1 htb1 h
          refine ⟨hseq2, hndv2, hkeys2, htb2, fun x hx => hgrow2 (hgrow1 hx), ?_, ?_⟩
          · intro x hx
            rcases List.mem_cons.mp hx with rfl | hx'
            · exact hgrow2 hdv1
            · exact hdall2 x hx'
          · intro x hx
            rcases hB2 x hx with hx' | ⟨d', hd', hrtg⟩
            · rcases hB1 x hx' with hx'' | hrtg
              · exact Or.inl hx''
              · exact Or.inr ⟨d, List.mem_cons_self _ _, hrtg⟩
            · exact Or.inr ⟨d', List.mem_cons_of_mem _ hd', hrtg⟩

/-! ## Fuel sufficiency for the queue builder -/

theorem costC_mono (C : Nat) (d : List (String × List String))
    {v v' : List String} (h : ∀ x, x ∈ v → x ∈ v') :
    (d.map fun p => if p.1 ∈ v' then 0 else C).sum ≤
      (d.map fun p => if p.1 ∈ v then 0 else C).sum := by
  apply List.sum_le_sum
  intro p _
  by_cases hp : p.1 ∈ v'
  · rw [if_pos hp]; exact Nat.zero_le _
  · rw [if_neg hp, if_neg fun hc => hp (h _ hc)]

theorem costC_drop (C : Nat) (t : String) :
    ∀ (d : List (String × List String)) (path : List String),
      (d.map Prod.fst).Nodup → t ∈ d.map Prod.fst → t ∉ path →
      (d.map fun p => if p.1 ∈ sinsert path t then 0 else C).sum + C ≤
        (d.map fun p => if p.1 ∈ path then 0 else C).sum := by
  intro d
  induction d with
  | nil => intro path _ ht _; simp at ht
  | cons p rest ih =>
    intro path hnd ht htp
    obtain ⟨k, l⟩ := p
    simp only [List.map_cons, List.nodup_cons] at hnd
    obtain ⟨hk, hnd'⟩ := hnd
    simp only [List.map_cons, List.sum_cons]
    by_cases hkt : t = k
    · subst hkt
      have h1 : (if (t, l).1 ∈ sinsert path t then 0 else C) = 0 :=
        if_pos (sinsert_self_mem path t)
      have h2 : (if (t, l).1 ∈ path then 0 else C) = C := if_neg htp
      rw [h1, h2]
      have h3 : ∀ q ∈ rest, ((if q.1 ∈ sinsert path t then 0 else C) : Nat) ≤
          (if q.1 ∈ path then 0 else C) := by
        intro q hq
        have hqt : q.1 ≠ t := by
          intro hc
          exact hk (by rw [← hc]; exact List.mem_map.mpr ⟨q, hq, rfl⟩)
        by_cases hv : q.1 ∈ path
        · rw [if_pos hv, if_pos ((mem_sinsert path t q.1).mpr (Or.inl hv))]
        · rw [if_neg hv, if_neg ?_]
          intro hc
          rcases (mem_sinsert path t q.1).mp hc with hc' | hc'
          · exact hv hc'
          · exact hqt hc'
      have := List.sum_le_sum h3
      omega
    · simp only [List.map_cons, List.mem_cons] at ht
      rcases ht with hc | ht'
      · exact absurd hc hkt
      · have hterm : ((if (k, l).1 ∈ sinsert path t then 0 else C) : Nat) ≤
            (if (k, l).1 ∈ path then 0 else C) := by
          by_cases hv : k ∈ path
          · exact le_of_eq (by rw [if_pos hv, if_pos ((mem_sinsert path t k).mpr (Or.inl hv))])
          · rw [if_neg hv]
            by_cases hsv : (k, l).1 ∈ sinsert path t
            · rw [if_pos hsv]; exact Nat.zero_le _
            · rw [if_neg hsv]
        have := ih path hnd' ht' htp
        dsimp only at hterm ⊢
        omega

theorem costQ_drop {prec : List (String × List String)} {t : String} {path : List String}
    (hnd : (prec.map Prod.fst).Nodup) (ht : t ∈ prec.map Prod.fst) (htp : t ∉ path) :
    costQ prec (sinsert path t) + (prec.length + 1) ≤ costQ prec path :=
  costC_drop (prec.length + 1) t prec path hnd ht htp

theorem sum_map_constC (C : Nat) :
    ∀ d : List (String × List String), (d.map fun _ => C).sum = d.length * C := by
  intro d
  induction d with
  | nil => simp
  | cons p rest ih =>
    simp only [List.map_cons, List.sum_cons, List.length_cons]
    rw [ih, Nat.succ_mul]
    omega

theorem costC_nil (C : Nat) (d : List (String × List String)) :
    (d.map fun p => if p.1 ∈ ([] : List String) then 0 else C).sum = d.length * C := by
  have h : (d.map fun p => if p.1 ∈ ([] : List String) then 0 else C) =
      d.map fun _ => C := by
    apply List.map_congr_left
    intro p _
    simp
  rw [h, sum_map_constC]

theorem costQ_nil (prec : List (String × List String)) :
    costQ prec [] = prec.length * (prec.length + 1) :=
  costC_nil (prec.length + 1) prec

theorem nodup_sub_keys_length {prec : List (String × List String)} {l : List String}
    (hndl : l.Nodup) (hsub : ∀ x ∈ l, x ∈ prec.map Prod.fst) :
    l.length ≤ prec.length := by
  have h1 : l.length = l.toFinset.card := (List.toFinset_card_of_nodup hndl).symm
  have h2 : l.toFinset ⊆ (prec.map Prod.fst).toFinset := by
    intro x hx
    rw [List.mem_toFinset] at hx ⊢
    exact hsub x hx
  calc l.length = l.toFinset.card := h1
    _ ≤ (prec.map Prod.fst).toFinset.card := Finset.card_le_card h2
    _ ≤ (prec.map Prod.fst).length := (prec.map Prod.fst).toFinset_card_le
    _ = prec.length := by simp

theorem depRel_cycle {prec : List (String × List String)} {t : String}
    (h : Relation.TransGen (depRel prec) t t) : hasCycle prec := by
  refine ⟨t, ?_⟩
  have h' : Relation.TransGen (Relation.TransGen (edgeA prec)) t t := h
  rwa [Relation.transGen_idem] at h'

theorem depRel_target_key {prec : List (String × List String)}
    (hcl : DClosed prec) {a b : String} (h : depRel prec a b) :
    b ∈ prec.map Prod.fst := by
  obtain ⟨c, hac, hcb⟩ := (Relation.TransGen.tail'_iff).mp h
  exact hcl c b hcb

theorem queue_fuel (ts : TaskSystem)
    (hnd : (ts.precedence.map Prod.fst).Nodup) (hcl : DClosed ts.precedence)
    (hacyc : ¬ hasCycle ts.precedence) :
    ∀ fuel : Nat,
      (∀ t path seq vis, t ∈ ts.precedence.map Prod.fst →
        List.Chain' (depRel ts.precedence) (path ++ [t]) →
        costQ ts.precedence path ≤ fuel →
        (rGetTasksQueue ts fuel t seq vis).isSome) ∧
      (∀ ds path tp seq vis,
        (∀ d ∈ ds, depRel ts.precedence tp d) →
        List.Chain' (depRel ts.precedence) (path ++ [tp]) → tp ∉ path →
        tp ∈ ts.precedence.map Prod.fst →
        costQ ts.precedence (sinsert path tp) + ds.length ≤ fuel →
        (rQueueLoop ts fuel ds seq vis).isSome) := by
  intro fuel
  induction fuel with
  | zero =>
    constructor
    · intro t path seq vis ht hch hcost
      have htp : t ∉ path := fun hc =>
        hacyc (depRel_cycle (chain'_to_last_strict path t t hch hc))
      have := costQ_drop hnd ht htp
      omega
    · intro ds path tp seq vis hds hch htp htk hcost
      cases ds with
      | nil => simp [rQueueLoop]
      | cons d ds' => simp only [List.length_cons] at hcost; omega
  | succ fuel ih =>
    obtain ⟨ihq, ihloop⟩ := ih
    constructor
    · intro t path seq vis ht hch hcost
      have htp : t ∉ path := fun hc =>
        hacyc (depRel_cycle (chain'_to_last_strict path t t hch hc))
      simp only [rGetTasksQueue]
      by_cases htv : t ∈ vis
      · rw [if_pos htv]; simp
      · rw [if_neg htv]
        obtain ⟨l, hget, hiff, hndl, hnl, hpbl, hlkeys⟩ :=
          getDependencies_ok ts hnd hcl hacyc t ht
        rw [hget]
        dsimp only
        by_cases hcond : (!(l.isEmpty || l.all fun d => vis.contains d)) = true
        · rw [if_pos hcond]
          have hlen : l.length ≤ ts.precedence.length :=
            nodup_sub_keys_length hndl hlkeys
          have hdrop := costQ_drop hnd ht htp
          have hloopSome := ihloop l path t seq vis
            (fun d hd => (hiff d).mp hd) hch htp ht (by omega)
          cases hres : rQueueLoop ts fuel l seq vis with
          | none => rw [hres] at hloopSome; simp at hloopSome
          | some res => obtain ⟨s1, v1⟩ := res; simp
        · rw [if_neg hcond]; simp
    · intro ds path tp seq vis hds hch htp htk hcost
      cases ds with
      | nil => simp [rQueueLoop]
      | cons d ds' =>
        simp only [rQueueLoop]
        have hdep : depRel ts.precedence tp d := hds d (List.mem_cons_self _ _)
        have hdkey : d ∈ ts.precedence.map Prod.fst := depRel_target_key hcl hdep
        have hpath : sinsert path tp = path ++ [tp] := sinsert_of_not_mem htp
        have hchd : List.Chain' (depRel ts.precedence) ((path ++ [tp]) ++ [d]) :=
          chain'_snoc hch hdep
        have hqSome := ihq d (path ++ [tp]) seq vis hdkey hchd
          (by rw [← hpath]; simp only [List.length_cons] at hcost; omega)
        cases hres : rGetTasksQueue ts fuel d seq vis with
        | none => rw [hres] at hqSome; simp at hqSome
        | some res =>
          obtain ⟨s1, v1⟩ := res
          dsimp only
          exact ihloop ds' path tp s1 v1
            (fun x hx => hds x (List.mem_cons_of_mem _ hx)) hch htp htk
            (by simp only [List.length_cons] at hcost; omega)


theorem getTasksQueueAll_ok (ts : TaskSystem)
    (hnd : (ts.precedence.map Prod.fst).Nodup) (hcl : DClosed ts.precedence)
    (hacyc : ¬ hasCycle ts.precedence) :
    ∀ (names : List String) (seq : List (Option Task)) (vis : List String),
      (∀ n ∈ names, n ∈ ts.precedence.map Prod.fst) →
      seq = vis.map (fun n => lookupA ts.tasks n) → vis.Nodup →
      (∀ v ∈ vis, v ∈ ts.precedence.map Prod.fst) →
      TransBefore ts.precedence vis →
      ∃ seq' vis', getTasksQueueAll ts names seq vis = some (seq', vis') ∧
        seq' = vis'.map (fun n => lookupA ts.tasks n) ∧ vis'.Nodup ∧
        (∀ v ∈ vis', v ∈ ts.precedence.map Prod.fst) ∧
        TransBefore ts.precedence vis' ∧ vis ⊆ vis' ∧ ∀ n ∈ names, n ∈ vis' := by
  intro names
  induction names with
  | nil =>
    intro seq vis _ hseq hndv hkeys htb
    exact ⟨seq, vis, rfl, hseq, hndv, hkeys, htb, fun x hx => hx, by simp⟩
  | cons n ns ih =>
    intro seq vis hnames hseq hndv hkeys htb
    have hn : n ∈ ts.precedence.map Prod.fst := hnames n (List.mem_cons_self _ _)
    have hSome := (queue_fuel ts hnd hcl hacyc
        (ts.precedence.length * (ts.precedence.length + 1) + 1)).1 n [] seq vis hn
      (by simp) (by rw [costQ_nil]; omega)
    cases hres : rGetTasksQueue ts
        (ts.precedence.length * (ts.precedence.length + 1) + 1) n seq vis with
    | none => rw [hres] at hSome; simp at hSome
    | some res =>
      obtain ⟨s1, v1⟩ := res
      obtain ⟨hseq1, hnd1, hkeys1, htb1, hgrow1, hnv1, -⟩ :=
        (queue_post ts hnd hcl hacyc _).1 n seq vis s1 v1 hseq hndv hkeys htb hres
      obtain ⟨seq', vis', hall, h1, h2, h3, h4, h5, h6⟩ :=
        ih s1 v1 (fun x hx => hnames x (List.mem_cons_of_mem _ hx)) hseq1 hnd1 hkeys1 htb1
      refine ⟨seq', vis', ?_, h1, h2, h3, h4, fun x hx => h5 (hgrow1 hx), ?_⟩
      · simp only [getTasksQueueAll]
        rw [hres]
        exact hall
      · intro x hx
        rcases List.mem_cons.mp hx with rfl | hx'
        · exact h5 hnv1
        · exact h6 x hx'

theorem lookup_registered {tasks : List Task} {n : String} {u : Task}
    (h : lookupA (tasks.map fun t => (t.name, t)) n = some u) :
    u ∈ tasks ∧ u.name = n := by
  have hmem := lookupA_mem h
  obtain ⟨t, ht, heq⟩ := List.mem_map.mp hmem
  rw [Prod.mk.injEq] at heq
  obtain ⟨h1, h2⟩ := heq
  subst h2
  exact ⟨ht, h1⟩

theorem execQueue_names (M : List (String × Task)) :
    ∀ (vis : List String) (st : String → Int),
      (∀ n ∈ vis, ∃ u act, lookupA M n = some u ∧ u.name = n ∧ u.run = some act) →
      ∃ st', execQueue (vis.map fun n => lookupA M n) st = some (st', vis) := by
  intro vis
  induction vis with
  | nil => intro st _; exact ⟨st, rfl⟩
  | cons n ns ih =>
    intro st hv
    obtain ⟨u, act, hl, hname, hrun⟩ := hv n (List.mem_cons_self _ _)
    obtain ⟨st1, hst1⟩ := ih (act st) (fun m hm => hv m (List.mem_cons_of_mem _ hm))
    refine ⟨st1, ?_⟩
    simp only [List.map_cons]
    rw [hl]
    simp only [execQueue]
    rw [hrun]
    dsimp only
    rw [hst1]
    dsimp only
    rw [hname]

theorem runSeqQueue_ok {tasks : List Task} {prec : List (String × List String)}
    {ts : TaskSystem} (hb : buildTaskSystem tasks prec = Except.ok ts)
    (hnd : (prec.map Prod.fst).Nodup) (hcl : DClosed prec) :
    ∃ vis, runSeqQueue ts = some (vis.map fun n => lookupA ts.tasks n) ∧
      vis.Nodup ∧ TransBefore prec vis ∧
      (∀ v ∈ vis, v ∈ prec.map Prod.fst) ∧
      (∀ u ∈ tasks, u.name ∈ vis) ∧
      ∀ v ∈ vis, (lookupA ts.tasks v).isSome := by
  obtain ⟨hpre, heq, hkiff, hval⟩ := buildOk_facts hb
  have hacyc : ¬ hasCycle prec := (validatePrecedenceDict_ok_iff prec hnd).mp hval
  have hnames : ∀ n ∈ ts.tasks.map Prod.fst, n ∈ ts.precedence.map Prod.fst := by
    intro n hn
    rw [hpre]
    exact (hkiff n).mp ((lookupA_isSome _ n).mpr hn)
  obtain ⟨seq', vis', hall, h1, h2, h3, h4, -, h6⟩ :=
    getTasksQueueAll_ok ts (by rw [hpre]; exact hnd) (by rw [hpre]; exact hcl)
      (by rw [hpre]; exact hacyc) (ts.tasks.map Prod.fst) [] [] hnames rfl
      List.nodup_nil (by intro v hv; simp at hv) (by intro l₁ x l₂ h; simp at h)
  refine ⟨vis', ?_, h2, by rw [hpre] at h4; exact h4, by rw [hpre] at h3; exact h3, ?_, ?_⟩
  · unfold runSeqQueue
    rw [hall, h1]
  · intro u hu
    refine h6 u.name ?_
    rw [heq, List.map_map]
    exact List.mem_map.mpr ⟨u, hu, rfl⟩
  · intro v hv
    have hvk := h3 v hv
    rw [hpre] at hvk
    exact (hkiff v).mpr hvk

/-- Claim C5: on a validly constructed system whose precedence values are
themselves registered (value-closure, which construction does not enforce —
see C1) and whose tasks all carry an action, `run_seq` returns, invoking
every registered task's action exactly once, in an order where each task's
full transitive dependency set appears strictly before the task itself. -/
theorem claimC5 (tasks : List Task) (prec : List (String × List String))
    (ts : TaskSystem) (hb : buildTaskSystem tasks prec = Except.ok ts)
    (hnd : (prec.map Prod.fst).Nodup) (hcl : PrecClosed prec)
    (hrun : ∀ t ∈ tasks, t.run.isSome) (st : String → Int) :
    ∃ st' names, runSeq ts st = some (st', names) ∧
      names.Perm (tasks.map Task.name) ∧ TransBefore prec names := by
  obtain ⟨hpre, heq, hkiff, -⟩ := buildOk_facts hb
  obtain ⟨hreg, -, -, -⟩ := buildTaskSystem_ok_elim hb
  obtain ⟨-, hndt, -⟩ := registerTasks_ok_implies prec tasks [] ts.tasks hreg
  obtain ⟨vis, hq, hndv, htb, hkeysv, hall, hsome⟩ :=
    runSeqQueue_ok hb hnd (precClosed_dClosed hcl)
  have hentry : ∀ n ∈ vis, ∃ u act,
      lookupA ts.tasks n = some u ∧ u.name = n ∧ u.run = some act := by
    intro n hn
    obtain ⟨u, hu⟩ := Option.isSome_iff_exists.mp (hsome n hn)
    have hu' : lookupA (tasks.map fun t => (t.name, t)) n = some u := by
      rw [← heq]; exact hu
    obtain ⟨humem, huname⟩ := lookup_registered hu'
    obtain ⟨act, hact⟩ := Option.isSome_iff_exists.mp (hrun u humem)
    exact ⟨u, act, hu, huname, hact⟩
  obtain ⟨st', hexec⟩ := execQueue_names ts.tasks vis st hentry
  refine ⟨st', vis, ?_, ?_, htb⟩
  · unfold runSeq
    rw [hq]
    exact hexec
  · rw [List.perm_ext_iff_of_nodup hndv hndt]
    intro x
    constructor
    · intro hx
      have hxk := hkeysv x hx
      have hxs : (lookupA ts.tasks x).isSome := (hkiff x).mpr hxk
      rw [lookupA_isSome, heq, List.map_map] at hxs
      exact hxs
    · intro hx
      obtain ⟨u, hu, rfl⟩ := List.mem_map.mp hx
      exact hall u hu

/-- Witness for C5: the six-task example runs sequentially, covering each
task name once in a dependency-consistent order. -/
theorem claimC5_witness :
    ∃ st' names, runSeq exSys st0 = some (st', names) ∧
      names.Perm (exTasks.map Task.name) ∧ TransBefore exPrec names :=
  claimC5 exTasks exPrec exSys (by rfl) (by decide) (by decide) (by decide) st0

theorem execQueue_hasNone :
    ∀ (q : List (Option Task)) (st : String → Int),
      (∃ e ∈ q, e = none ∨ ∃ u, e = some u ∧ u.run = none) →
      execQueue q st = none := by
  intro q
  induction q with
  | nil => intro st h; obtain ⟨e, he, -⟩ := h; simp at he
  | cons e rest ih =>
    intro st h
    obtain ⟨e', he', hbad⟩ := h
    rcases List.mem_cons.mp he' with rfl | hmem
    · rcases hbad with rfl | ⟨u, rfl, hrun⟩
      · rfl
      · simp only [execQueue]
        rw [hrun]
    · cases e with
      | none => rfl
      | some u =>
        simp only [execQueue]
        cases hr : u.run with
        | none => rfl
        | some act =>
          dsimp only
          rw [ih (act st) ⟨e', hmem, hbad⟩]

/-- Claim C10: a `Task` may be built with no action; construction of an
otherwise valid system accepts it (construction never inspects `run`), and
the failure surfaces only when `run_seq` reaches the missing action — the
whole sequential run aborts (the `TypeError` of calling `None`). -/
theorem claimC10 (tasks : List Task) (prec : List (String × List String))
    (hnd : (prec.map Prod.fst).Nodup)
    (hentries : ∀ t ∈ tasks, (lookupA prec t.name).isSome)
    (hndt : (tasks.map Task.name).Nodup)
    (hkeys : ∀ p ∈ prec, p.1 ∈ tasks.map Task.name)
    (hval : validatePrecedenceDict prec = Except.ok ())
    (hcl : PrecClosed prec)
    (t0 : Task) (ht0 : t0 ∈ tasks) (hnorun : t0.run = none) :
    ∃ ts, buildTaskSystem tasks prec = Except.ok ts ∧
      ∀ st, runSeq ts st = none := by
  have hacyc : ¬ hasCycle prec := (validatePrecedenceDict_ok_iff prec hnd).mp hval
  obtain ⟨ts, hb⟩ := buildTaskSystem_ok_of_valid tasks prec hnd hentries hndt hkeys hacyc
  refine ⟨ts, hb, ?_⟩
  intro st
  obtain ⟨hpre, heq, hkiff, -⟩ := buildOk_facts hb
  obtain ⟨vis, hq, hndv, htb, hkeysv, hall, hsome⟩ :=
    runSeqQueue_ok hb hnd (precClosed_dClosed hcl)
  unfold runSeq
  rw [hq]
  apply execQueue_hasNone
  refine ⟨lookupA ts.tasks t0.name, List.mem_map.mpr ⟨t0.name, hall t0 ht0, rfl⟩, ?_⟩
  obtain ⟨u, hu⟩ := Option.isSome_iff_exists.mp (hsome t0.name (hall t0 ht0))
  have hu' : lookupA (tasks.map fun t => (t.name, t)) t0.name = some u := by
    rw [← heq]; exact hu
  obtain ⟨humem, huname⟩ := lookup_registered hu'
  have hut0 : u = t0 :=
    List.inj_on_of_nodup_map hndt humem ht0 (by rw [huname])
  refine Or.inr ⟨u, hu, ?_⟩
  rw [hut0]
  exact hnorun

/-- Witness for C10: the one-task system whose task "N" has no action is
accepted by construction and its sequential run fails. -/
theorem claimC10_witness :
    ∃ ts, buildTaskSystem [taskNoRun] [("N", [])] = Except.ok ts ∧
      ∀ st, runSeq ts st = none :=
  claimC10 [taskNoRun] [("N", [])] (by decide) (by decide) (by decide) (by decide)
    (by rfl) (by decide) taskNoRun (List.mem_cons_self _ _) (by rfl)

theorem conflict_symm {a b : Task} (h : Conflict a b) : Conflict b a := by
  rcases h with ⟨k, h1, h2⟩ | ⟨k, h1, h2⟩
  · exact Or.inr ⟨k, h2, h1⟩
  · exact Or.inl ⟨k, h2, h1⟩

theorem parStep_inv (ts : TaskSystem) {c c' : ParConfig} (hstep : ParStep ts c c')
    (hpw : List.Pairwise (fun p q => ¬ Conflict p.1 q.1 ∧ ¬ Conflict q.1 p.1) c.running)
    (hdeps : ∀ p ∈ c.running, ∃ deps, getDependencies ts p.1.name = Except.ok deps ∧
      ∀ d ∈ deps, d ∈ c.executed) :
    List.Pairwise (fun p q => ¬ Conflict p.1 q.1 ∧ ¬ Conflict q.1 p.1) c'.running ∧
    ∀ p ∈ c'.running, ∃ deps, getDependencies ts p.1.name = Except.ok deps ∧
      ∀ d ∈ deps, d ∈ c'.executed := by
  cases hstep with
  | start t rest running executed st deps hdep hconf hdone =>
    constructor
    · rw [List.pairwise_append]
      refine ⟨hpw, List.pairwise_singleton _ _, ?_⟩
      intro p hp q hq
      rw [List.mem_singleton] at hq
      subst hq
      exact ⟨fun hc => hconf p hp (conflict_symm hc), hconf p hp⟩
    · intro p hp
      rcases List.mem_append.mp hp with hp' | hp'
      · exact hdeps p hp'
      · rw [List.mem_singleton] at hp'
        subst hp'
        exact ⟨deps, hdep, hdone⟩
  | requeue t rest running executed st deps hdep hblock => exact ⟨hpw, hdeps⟩
  | finish t snap r₁ r₂ queue executed st act hrun =>
    have hsub : (r₁ ++ r₂).Sublist (r₁ ++ (t, snap) :: r₂) :=
      List.Sublist.append_left (List.sublist_cons_self _ _) r₁
    refine ⟨hpw.sublist hsub, ?_⟩
    intro p hp
    obtain ⟨deps, hd, hall⟩ := hdeps p (hsub.mem hp)
    exact ⟨deps, hd, fun d hdm => List.mem_append_left _ (hall d hdm)⟩
  | finishNone t snap r₁ r₂ queue executed st hrun =>
    have hsub : (r₁ ++ r₂).Sublist (r₁ ++ (t, snap) :: r₂) :=
      List.Sublist.append_left (List.sublist_cons_self _ _) r₁
    refine ⟨hpw.sublist hsub, ?_⟩
    intro p hp
    obtain ⟨deps, hd, hall⟩ := hdeps p (hsub.mem hp)
    exact ⟨deps, hd, fun d hdm => List.mem_append_left _ (hall d hdm)⟩

/-- Claim C6: in every run of the parallel scheduler, no two simultaneously
running tasks have a read/write or write/read overlap (the dispatch guard of
line 291), and every running task was started only after its full transitive
dependency set was in the executed set — the dependency set only grows, so
the containment persists while the task runs. -/
theorem claimC6 (ts : TaskSystem) (queue : List Task) (st : String → Int)
    (c : ParConfig) (hreach : ParReach ts (parInit queue st) c) :
    List.Pairwise (fun p q => ¬ Conflict p.1 q.1 ∧ ¬ Conflict q.1 p.1) c.running ∧
    ∀ p ∈ c.running, ∃ deps, getDependencies ts p.1.name = Except.ok deps ∧
      ∀ d ∈ deps, d ∈ c.executed := by
  induction hreach with
  | refl => exact ⟨List.Pairwise.nil, fun p hp => absurd hp (List.not_mem_nil p)⟩
  | tail hsteps hstep ih => exact parStep_inv ts hstep ih.1 ih.2

/-- Witness for C6: after dispatching the single task of the one-task
system, the lone running task conflicts with nothing and its (empty)
dependency set is contained in the executed set. -/
theorem claimC6_witness :
    List.Pairwise (fun p q => ¬ Conflict p.1 q.1 ∧ ¬ Conflict q.1 p.1)
      (ParConfig.mk [] [(taskNoRun, st0)] [] st0).running ∧
    ∀ p ∈ (ParConfig.mk [] [(taskNoRun, st0)] [] st0).running,
      ∃ deps, getDependencies sysNoRun p.1.name = Except.ok deps ∧
        ∀ d ∈ deps, d ∈ (ParConfig.mk [] [(taskNoRun, st0)] [] st0).executed :=
  claimC6 sysNoRun [taskNoRun] st0 ⟨[], [(taskNoRun, st0)], [], st0⟩
    (Relation.ReflTransGen.single
      (ParStep.start taskNoRun [] [] [] st0 [] (by rfl)
        (fun p hp => absurd hp (List.not_mem_nil p))
        (fun d hd => absurd hd (List.not_mem_nil d))))

/-- Claim C7, refuted against the code: both tasks of `sysWW` declare their
effects accurately (each writes only "X" and reads nothing), the parallel
scheduler builds the same queue as `run_seq`, yet `run_seq` ends with
`X = 2` while a complete parallel run in which "WB"'s thread finishes
before "WA"'s ends with `X = 1`: the dispatch guard of line 291 compares
reads against writes only, so two writers of the same variable run
concurrently and the final state depends on thread timing. -/
theorem claimC7_bug :
    Accurate taskWA ∧ Accurate taskWB ∧
    runParQueue sysWW = some [taskWA, taskWB] ∧
    (∃ st names, runSeq sysWW st0 = some (st, names) ∧ st "X" = 2) ∧
    ∃ c, ParReach sysWW (parInit [taskWA, taskWB] st0) c ∧ ParDone c ∧
      c.st "X" = 1 := by
  refine ⟨?_, ?_, by rfl, ⟨_, _, by rfl, by rfl⟩, ?_⟩
  · refine ⟨_, rfl, ?_, ?_⟩
    · intro st k hk
      have hkx : ¬ (k = "X") := fun h => hk (by rw [h]; exact List.mem_singleton.mpr rfl)
      exact if_neg hkx
    · intro st st' _ k hk
      have hk' : k = "X" := by simpa [taskWA] using hk
      subst hk'
      rfl
  · refine ⟨_, rfl, ?_, ?_⟩
    · intro st k hk
      have hkx : ¬ (k = "X") := fun h => hk (by rw [h]; exact List.mem_singleton.mpr rfl)
      exact if_neg hkx
    · intro st st' _ k hk
      have hk' : k = "X" := by simpa [taskWB] using hk
      subst hk'
      rfl
  · have hnoconf : ∀ p ∈ [(taskWA, st0)], ¬ Conflict taskWB p.1 := by
      intro p hp
      rw [List.mem_singleton] at hp
      subst hp
      rintro (⟨k, hk, -⟩ | ⟨k, -, hk⟩) <;> simp [taskWA, taskWB] at hk
    exact ⟨_, Relation.ReflTransGen.head
      (ParStep.start taskWA [taskWB] [] [] st0 [] rfl
        (fun p hp => absurd hp (List.not_mem_nil p))
        (fun d hd => absurd hd (List.not_mem_nil d)))
      (Relation.ReflTransGen.head
        (ParStep.start taskWB [] [(taskWA, st0)] [] st0 [] rfl hnoconf
          (fun d hd => absurd hd (List.not_mem_nil d)))
        (Relation.ReflTransGen.head
          (ParStep.finish taskWB st0 [(taskWA, st0)] [] [] [] st0 _ rfl)
          (Relation.ReflTransGen.single
            (ParStep.finish taskWA st0 [] [] [] ["WB"] _ _ rfl)))),
      ⟨rfl, rfl⟩, by rfl⟩

end Maxpar
